import Mathlib

/-!
Verification of the musli wire codec, integer subsystem and PHF generator.

The Lean definitions below are shallow embeddings of the Rust sources:

* `crates/musli-wire/src/de.rs` — the wire decoder (`skip_any`,
  `decode_option`, pair sequences, `RemainingWireDecoder`);
* `crates/musli-zerocopy/src/phf/generator.rs` — the CHD perfect hash
  generator (`displacements_len`, `try_generate_hash`, `generate_hash`);
* `crates/musli-common/src/buffered_writer.rs` — `BufferedWriter`.

Machine integers are embedded as `Nat`/`Int` with explicit reductions
modulo `2 ^ w` where the Rust code wraps or truncates.  Components of the
repository that the claims depend on but whose sources are not part of
this snapshot (the `Tag` byte layout, the zigzag and continuation integer
codecs, `FixedBytes`, the hashing helpers) are modelled from the
specification; each such definition says so in its doc comment.
-/

/-! ## Zigzag mapping (integer subsystem) -/

/-- Modelled from the spec: zigzag encoding of a `W`-bit two's-complement
bit pattern `u`, following `(n << 1) ^ (n >> (W-1))` with an arithmetic
right shift: the shift contributes the all-ones mask exactly when the sign
bit of `u` is set.  The zigzag implementation itself
(`musli-utils/src/int/zigzag.rs`) is missing from the snapshot; only its
tests are present. -/
def zigEncodeBits (W u : Nat) : Nat :=
  2 * u % 2 ^ W ^^^ (if 2 ^ (W - 1) ≤ u then 2 ^ W - 1 else 0)

/-- Modelled from the spec: zigzag decoding `(u >> 1) ^ -(u & 1)` on `W`-bit
patterns; the negation of the low bit is the all-ones mask when `u` is odd. -/
def zigDecodeBits (W u : Nat) : Nat :=
  u / 2 ^^^ (if u % 2 = 1 then 2 ^ W - 1 else 0)

/-- Two's-complement bit pattern of the integer `n` at width `W`. -/
def toBits (W : Nat) (n : Int) : Nat :=
  (n % (2 ^ W : Int)).toNat

/-- Signed reinterpretation of a `W`-bit pattern. -/
def ofBits (W : Nat) (u : Nat) : Int :=
  if u < 2 ^ (W - 1) then (u : Int) else (u : Int) - 2 ^ W

/-- Modelled from the spec: `zig::encode` for a signed value of width `W`. -/
def zigEncode (W : Nat) (n : Int) : Nat :=
  zigEncodeBits W (toBits W n)

/-- Modelled from the spec: `zig::decode` back to a signed value of width `W`. -/
def zigDecode (W : Nat) (u : Nat) : Int :=
  ofBits W (zigDecodeBits W u)

theorem xor_div_two (a b : Nat) : (a ^^^ b) / 2 = a / 2 ^^^ b / 2 := by
  apply Nat.eq_of_testBit_eq
  intro i
  simp [Nat.testBit_div_two, Nat.testBit_xor]

theorem xor_mod_two (a b : Nat) : (a ^^^ b) % 2 = (a % 2 + b % 2) % 2 := by
  rw [Nat.xor_mod_two_eq, Nat.add_mod]

theorem xor_ones (W : Nat) : ∀ a, a < 2 ^ W → a ^^^ (2 ^ W - 1) = 2 ^ W - 1 - a := by
  induction W with
  | zero =>
    intro a ha
    interval_cases a
    rfl
  | succ W ih =>
    intro a ha
    have hpow : 2 ^ (W + 1) = 2 * 2 ^ W := by rw [Nat.pow_succ]; ring
    have hpos : 0 < 2 ^ W := Nat.pos_pow_of_pos W (by omega)
    have hdiv : (a ^^^ (2 ^ (W + 1) - 1)) / 2 = 2 ^ W - 1 - a / 2 := by
      rw [xor_div_two]
      have h1 : (2 ^ (W + 1) - 1) / 2 = 2 ^ W - 1 := by omega
      rw [h1]
      exact ih (a / 2) (by omega)
    have hmod : (a ^^^ (2 ^ (W + 1) - 1)) % 2 = (a % 2 + (2 ^ (W + 1) - 1) % 2) % 2 :=
      xor_mod_two _ _
    have hones : (2 ^ (W + 1) - 1) % 2 = 1 := by omega
    have hx := Nat.div_add_mod (a ^^^ (2 ^ (W + 1) - 1)) 2
    have hd := Nat.div_add_mod a 2
    omega

theorem zigDecodeBits_odd (W v : Nat) (h : v < 2 ^ W) :
    zigDecodeBits W (2 * v + 1) = 2 ^ W - 1 - v := by
  unfold zigDecodeBits
  have hdiv : (2 * v + 1) / 2 = v := by omega
  have hm : (2 * v + 1) % 2 = 1 := by omega
  rw [hdiv, hm, if_pos rfl, xor_ones W v h]

theorem zigDecodeBits_even (W v : Nat) :
    zigDecodeBits W (2 * v) = v := by
  unfold zigDecodeBits
  have hdiv : 2 * v / 2 = v := by omega
  have hm : ¬ 2 * v % 2 = 1 := by omega
  rw [hdiv, if_neg hm]
  simp

theorem zigEncodeBits_high (W u : Nat) (hu : u < 2 ^ W) (hs : 2 ^ (W - 1) ≤ u)
    (hpow : 2 ^ W = 2 * 2 ^ (W - 1)) :
    zigEncodeBits W u = 2 * (2 ^ W - 1 - u) + 1 := by
  unfold zigEncodeBits
  rw [if_pos hs]
  have h2u : 2 ^ W ≤ 2 * u := by omega
  have hmod : 2 * u % 2 ^ W = 2 * u - 2 ^ W := by
    rw [Nat.mod_eq_sub_mod h2u, Nat.mod_eq_of_lt (by omega)]
  rw [hmod, xor_ones W _ (by omega)]
  omega

theorem zigEncodeBits_low (W u : Nat) (hs : u < 2 ^ (W - 1))
    (hpow : 2 ^ W = 2 * 2 ^ (W - 1)) :
    zigEncodeBits W u = 2 * u := by
  unfold zigEncodeBits
  rw [if_neg (by omega), Nat.mod_eq_of_lt (by omega)]
  simp

theorem zig_roundtrip_bits (W u : Nat) (hu : u < 2 ^ W) :
    zigDecodeBits W (zigEncodeBits W u) = u := by
  rcases Nat.eq_zero_or_pos W with hW | hW
  · subst hW
    interval_cases u
    rfl
  have hpow : 2 ^ W = 2 * 2 ^ (W - 1) := by
    conv_lhs => rw [show W = (W - 1) + 1 by omega]
    rw [Nat.pow_succ]; ring
  by_cases hs : 2 ^ (W - 1) ≤ u
  · rw [zigEncodeBits_high W u hu hs hpow, zigDecodeBits_odd W _ (by omega)]
    omega
  · rw [zigEncodeBits_low W u (by omega) hpow, zigDecodeBits_even]

theorem toBits_nonneg (W : Nat) (n : Int) (h0 : 0 ≤ n) (h1 : n < 2 ^ W) :
    toBits W n = n.toNat := by
  unfold toBits
  rw [Int.emod_eq_of_lt h0 (by exact_mod_cast h1)]

theorem toBits_neg (W : Nat) (n : Int) (h0 : -(2 ^ W) ≤ n) (h1 : n < 0) :
    toBits W n = (n + 2 ^ W).toNat := by
  unfold toBits
  have hpos : (0 : Int) < 2 ^ W := by positivity
  have hsh : (n + 2 ^ W) % (2 ^ W : Int) = n % (2 ^ W : Int) := by
    have h := Int.add_mul_emod_self_left (a := n) (b := (2 ^ W : Int)) (c := 1)
    rw [mul_one] at h
    exact h
  rw [← hsh, Int.emod_eq_of_lt (by omega) (by omega)]

/-- Claim C3: for every signed width `W ≥ 2` (all of `i16/i32/i64/i128/isize`
have `W ≥ 16`), zigzag decode is a left inverse of zigzag encode on the whole
signed range, and the boundary values map exactly as `0 ↦ 0`, `-1 ↦ 1`,
`1 ↦ 2`, `MIN = -2^(W-1) ↦ U::MAX = 2^W - 1`, `MAX = 2^(W-1) - 1 ↦ 2^W - 2`. -/
theorem C3_zigzag (W : Nat) (n : Int) (hW : 2 ≤ W)
    (hlo : -(2 ^ (W - 1)) ≤ n) (hhi : n < 2 ^ (W - 1)) :
    zigDecode W (zigEncode W n) = n ∧
    zigEncode W 0 = 0 ∧
    zigEncode W (-1) = 1 ∧
    zigEncode W 1 = 2 ∧
    zigEncode W (-(2 ^ (W - 1))) = 2 ^ W - 1 ∧
    zigEncode W (2 ^ (W - 1) - 1) = 2 ^ W - 2 := by
  have hpow : 2 ^ W = 2 * 2 ^ (W - 1) := by
    conv_lhs => rw [show W = (W - 1) + 1 by omega]
    rw [Nat.pow_succ]; ring
  have hposN : (0 : Nat) < 2 ^ (W - 1) := Nat.pos_pow_of_pos _ (by omega)
  have h2N : 2 ≤ 2 ^ (W - 1) := by
    calc 2 = 2 ^ 1 := rfl
    _ ≤ 2 ^ (W - 1) := Nat.pow_le_pow_right (by omega) (by omega)
  have hcast : ((2 ^ (W - 1) : Nat) : Int) = (2 ^ (W - 1) : Int) := by push_cast; ring
  have hcastW : ((2 ^ W : Nat) : Int) = (2 ^ W : Int) := by push_cast; ring
  have hpowI : (2 ^ W : Int) = 2 * 2 ^ (W - 1) := by
    rw [← hcastW, ← hcast]
    exact_mod_cast hpow
  refine ⟨?_, ?_, ?_, ?_, ?_, ?_⟩
  · -- round trip
    have hbits : toBits W n < 2 ^ W := by
      rcases le_or_lt 0 n with hn | hn
      · rw [toBits_nonneg W n hn (by omega)]
        omega
      · rw [toBits_neg W n (by omega) hn]
        omega
    unfold zigDecode zigEncode
    rw [zig_roundtrip_bits W _ hbits]
    unfold ofBits
    rcases le_or_lt 0 n with hn | hn
    · rw [toBits_nonneg W n hn (by omega)]
      have hlt : n.toNat < 2 ^ (W - 1) := by omega
      rw [if_pos hlt]
      omega
    · rw [toBits_neg W n (by omega) hn]
      have hge : ¬ (n + 2 ^ W).toNat < 2 ^ (W - 1) := by omega
      rw [if_neg hge]
      omega
  · -- 0 maps to 0
    unfold zigEncode
    rw [toBits_nonneg W 0 le_rfl (by positivity)]
    rw [show (0 : Int).toNat = 0 from rfl]
    rw [zigEncodeBits_low W 0 hposN hpow]
  · -- -1 maps to 1
    unfold zigEncode
    rw [toBits_neg W (-1) (by omega) (by omega)]
    have hv : ((-1 : Int) + 2 ^ W).toNat = 2 ^ W - 1 := by omega
    rw [hv, zigEncodeBits_high W _ (by omega) (by omega) hpow]
    omega
  · -- 1 maps to 2
    unfold zigEncode
    rw [toBits_nonneg W 1 (by omega) (by omega)]
    rw [show (1 : Int).toNat = 1 from rfl]
    rw [zigEncodeBits_low W 1 (by omega) hpow]
  · -- MIN maps to U MAX
    unfold zigEncode
    rw [toBits_neg W _ (by omega) (by omega)]
    have hv : (-(2 ^ (W - 1) : Int) + 2 ^ W).toNat = 2 ^ (W - 1) := by omega
    rw [hv, zigEncodeBits_high W _ (by omega) le_rfl hpow]
    omega
  · -- MAX maps to U MAX minus one
    unfold zigEncode
    rw [toBits_nonneg W _ (by omega) (by omega)]
    have hv : ((2 ^ (W - 1) : Int) - 1).toNat = 2 ^ (W - 1) - 1 := by omega
    rw [hv, zigEncodeBits_low W _ (by omega) hpow]
    omega

/-- Witness for C3 at `W = 32`, `n = -1`. -/
theorem C3_zigzag_witness :
    (2 ≤ 32 ∧ -(2 ^ (32 - 1)) ≤ (-1 : Int) ∧ (-1 : Int) < 2 ^ (32 - 1)) ∧
    (zigDecode 32 (zigEncode 32 (-1)) = -1 ∧
     zigEncode 32 0 = 0 ∧
     zigEncode 32 (-1) = 1 ∧
     zigEncode 32 1 = 2 ∧
     zigEncode 32 (-(2 ^ (32 - 1))) = 2 ^ 32 - 1 ∧
     zigEncode 32 (2 ^ (32 - 1) - 1) = 2 ^ 32 - 2) :=
  ⟨⟨by norm_num, by norm_num, by norm_num⟩,
   C3_zigzag 32 (-1) (by norm_num) (by norm_num) (by norm_num)⟩

/-! ## PHF displacements length -/

/-- Source constant `DEFAULT_LAMBDA` from `phf/generator.rs`. -/
def DEFAULT_LAMBDA : Nat := 5

/-- Source function `displacements_len` from `phf/generator.rs`:
`(len + DEFAULT_LAMBDA - 1) / DEFAULT_LAMBDA`. -/
def displacements_len (len : Nat) : Nat :=
  (len + DEFAULT_LAMBDA - 1) / DEFAULT_LAMBDA

/-- Claim C9: for every `N ≥ 1` the displacements slice has length
`ceil(N / 5)`: `displacements_len` computes `(N + 5 - 1) / 5`, that value
`d` is the least with `N ≤ 5 * d`, and `displacements_len 26 = 6`. -/
theorem C9_displacements_len (N : Nat) (h : 1 ≤ N) :
    displacements_len N = (N + 5 - 1) / 5 ∧
    N ≤ 5 * displacements_len N ∧
    5 * (displacements_len N - 1) < N ∧
    displacements_len 26 = 6 := by
  unfold displacements_len DEFAULT_LAMBDA
  refine ⟨rfl, by omega, by omega, by norm_num⟩

/-- Witness for C9 at `N = 26`. -/
theorem C9_displacements_len_witness :
    1 ≤ 26 ∧
    (displacements_len 26 = (26 + 5 - 1) / 5 ∧
     26 ≤ 5 * displacements_len 26 ∧
     5 * (displacements_len 26 - 1) < 26 ∧
     displacements_len 26 = 6) :=
  ⟨by norm_num, C9_displacements_len 26 (by norm_num)⟩

/-! ## Buffered writer -/

/-- State of `BufferedWriter<N, W>` from `buffered_writer.rs`: the inline
scratch `buf` (modelled from the spec: `FixedBytes<N>` is a fixed-capacity
inline byte buffer, not in the snapshot) and the bytes already written to the
inner writer `W` (whose own writes are infallible in this model). -/
structure BufferedWriter (N : Nat) where
  buf : List Nat
  writer : List Nat
deriving DecidableEq

/-- Modelled from the spec: `FixedBytes::write_bytes` appends to the inline
buffer and fails with `FixedBytesOverflow` when the capacity `N` would be
exceeded (`remaining() < bytes.len()`). -/
def fixedWriteBytes (N : Nat) (buf bytes : List Nat) : Option (List Nat) :=
  if N < buf.length + bytes.length then none else some (buf ++ bytes)

/-- Source `BufferedWriter::write_bytes`: if the inline buffer's remaining
capacity is smaller than the incoming slice, flush the buffer to the inner
writer and clear it; then append the slice to the inline buffer. -/
def write_bytes (N : Nat) (w : BufferedWriter N) (bytes : List Nat) :
    Option (BufferedWriter N) :=
  let w1 : BufferedWriter N :=
    if N - w.buf.length < bytes.length then ⟨[], w.writer ++ w.buf⟩ else w
  match fixedWriteBytes N w1.buf bytes with
  | none => none
  | some b => some ⟨b, w1.writer⟩

/-- Claim C7: `write_bytes b` flushes the inline buffer to the inner writer
exactly when its free capacity is below `b.len`, then appends `b`; the append
fails with the buffer-overflow error precisely when `b.len` alone exceeds the
inline capacity `N` (inner-writer errors are the only other failure source and
the modelled inner writer never fails). -/
theorem C7_write_bytes (N : Nat) (w : BufferedWriter N) (bytes : List Nat)
    (hinv : w.buf.length ≤ N) :
    (N - w.buf.length < bytes.length →
       write_bytes N w bytes =
         if bytes.length ≤ N then some ⟨bytes, w.writer ++ w.buf⟩ else none) ∧
    (bytes.length ≤ N - w.buf.length →
       write_bytes N w bytes = some ⟨w.buf ++ bytes, w.writer⟩) ∧
    (write_bytes N w bytes = none ↔ N < bytes.length) := by
  have hmain : write_bytes N w bytes =
      if N - w.buf.length < bytes.length then
        (if N < bytes.length then none else some ⟨bytes, w.writer ++ w.buf⟩)
      else some ⟨w.buf ++ bytes, w.writer⟩ := by
    by_cases hflush : N - w.buf.length < bytes.length
    · by_cases hover : N < bytes.length
      · simp [write_bytes, fixedWriteBytes, hflush, hover]
      · simp [write_bytes, fixedWriteBytes, hflush, hover]
    · have hfit : ¬ N < w.buf.length + bytes.length := by omega
      simp [write_bytes, fixedWriteBytes, hflush, hfit]
  rw [hmain]
  by_cases hflush : N - w.buf.length < bytes.length
  · rw [if_pos hflush]
    by_cases hover : N < bytes.length
    · rw [if_pos hover]
      exact ⟨fun h => by rw [if_neg (by omega)], fun h => by omega, by simp [hover]⟩
    · rw [if_neg hover]
      exact ⟨fun h => by rw [if_pos (by omega)], fun h => by omega, by simp [hover]⟩
  · rw [if_neg hflush]
    exact ⟨fun h => by omega, fun h => rfl, by simp; omega⟩

/-- Witness for C7: capacity 2, one byte buffered, two bytes incoming forces a
flush; and a small append without flush. -/
theorem C7_write_bytes_witness :
    (List.length [1] ≤ 2) ∧
    ((2 - List.length [1] < List.length [2, 3] →
       write_bytes 2 ⟨[1], []⟩ [2, 3] =
         if List.length [2, 3] ≤ 2 then some ⟨[2, 3], [] ++ [1]⟩ else none) ∧
     (List.length [2, 3] ≤ 2 - List.length [1] →
       write_bytes 2 ⟨[1], []⟩ [2, 3] = some ⟨[1] ++ [2, 3], []⟩) ∧
     (write_bytes 2 ⟨[1], []⟩ [2, 3] = none ↔ 2 < List.length [2, 3])) :=
  ⟨by decide, C7_write_bytes 2 ⟨[1], []⟩ [2, 3] (by decide)⟩

/-! ## Wire format basics: tags, reader, encoding policies -/

/-- Decoder errors surfaced by the wire decoder and the integer codecs. -/
inductive DecErr where
  | truncated : DecErr
  | expected (want : Nat) (actualTag : Nat) (pos : Nat) : DecErr
  | expectedOpt (tag : Nat) (pos : Nat) : DecErr
  | invalidCont : DecErr
deriving DecidableEq

/-- Tag kinds, modelled from the spec: the top two bits of the tag byte,
in the order Byte, Prefix, Sequence, Continuation. -/
inductive Kind where
  | byte : Kind
  | pfx : Kind
  | seq : Kind
  | cont : Kind
deriving DecidableEq

/-- Numeric value of a kind in the top two bits (modelled from the spec). -/
def kindVal : Kind → Nat
  | .byte => 0
  | .pfx => 1
  | .seq => 2
  | .cont => 3

/-- Modelled from the spec: `Tag::kind` reads the top two bits of the byte. -/
def tagKind (b : Nat) : Kind :=
  match b % 256 / 64 with
  | 0 => .byte
  | 1 => .pfx
  | 2 => .seq
  | _ => .cont

/-- Modelled from the spec: `Tag::data` returns the low six bits unless they
hold the sentinel 63, in which case the payload follows the tag. -/
def tagData (b : Nat) : Option Nat :=
  if b % 64 = 63 then none else some (b % 64)

/-- Modelled from the spec: `Tag::new` packs a kind and a small data value
into one byte. -/
def tagNew (k : Kind) (d : Nat) : Nat :=
  kindVal k * 64 + d % 64

/-- A positioned reader over borrowed bytes: the unconsumed suffix plus the
count of bytes consumed from the origin (`PositionedReader::pos`). -/
structure Reader where
  data : List Nat
  pos : Nat
deriving DecidableEq

/-- Source `Reader::read_byte`: one byte or a truncation error. -/
def Reader.read_byte (r : Reader) : Except DecErr (Nat × Reader) :=
  match r.data with
  | [] => .error .truncated
  | b :: rest => .ok (b % 256, ⟨rest, r.pos + 1⟩)

/-- Source `Reader::skip`: drop `n` bytes or fail when fewer remain. -/
def Reader.skip (r : Reader) (n : Nat) : Except DecErr Reader :=
  if n ≤ r.data.length then .ok ⟨r.data.drop n, r.pos + n⟩ else .error .truncated

/-- Usize encoding policy `L`: continuation varint or fixed-width (8-byte)
little/big endian. -/
inductive LPol where
  | varint : LPol
  | fixedLE : LPol
  | fixedBE : LPol
deriving DecidableEq

/-- Modelled from the spec: continuation-varint encoding, little-endian 7-bit
groups, high bit set on every group except the last. -/
def cEncode (n : Nat) : List Nat :=
  if n < 128 then [n] else (n % 128 + 128) :: cEncode (n / 128)
termination_by n
decreasing_by exact Nat.div_lt_self (by omega) (by omega)

/-- Modelled from the spec: continuation-varint decoding; accumulates 7-bit
groups until a group with a clear high bit, rejecting a trailing zero group
that is not also the first group (non-canonical padding). -/
def cDecodeAux (first : Bool) : List Nat → Option (Nat × List Nat)
  | [] => none
  | b :: rest =>
    if b % 256 < 128 then
      if first = false ∧ b % 256 = 0 then none else some (b % 256, rest)
    else
      match cDecodeAux false rest with
      | none => none
      | some (hi, r) => some (b % 256 % 128 + 128 * hi, r)

/-- Modelled from the spec: continuation decode into a `W`-bit target,
rejecting overflow; advances the reader past the consumed groups. -/
def cDecode (W : Nat) (r : Reader) : Except DecErr (Nat × Reader) :=
  match cDecodeAux true r.data with
  | none => .error .invalidCont
  | some (n, rest) =>
    if n < 2 ^ W then .ok (n, ⟨rest, r.pos + (r.data.length - rest.length)⟩)
    else .error .invalidCont

/-- Little-endian base-256 bytes of `n`, `k` bytes wide. -/
def leBytes : Nat → Nat → List Nat
  | 0, _ => []
  | k + 1, n => n % 256 :: leBytes k (n / 256)

/-- Value of a little-endian byte list. -/
def leValue : List Nat → Nat
  | [] => 0
  | b :: rest => b % 256 + 256 * leValue rest

/-- Modelled from the spec: fixed-width usize decode, 8 bytes in the selected
endianness. -/
def fixedDecodeUsize (be : Bool) (r : Reader) : Except DecErr (Nat × Reader) :=
  if 8 ≤ r.data.length then
    let bs := r.data.take 8
    .ok (leValue (if be then bs.reverse else bs), ⟨r.data.drop 8, r.pos + 8⟩)
  else .error .truncated

/-- Source call `L::decode_usize`: dispatch on the usize policy. -/
def decode_usize (L : LPol) (r : Reader) : Except DecErr (Nat × Reader) :=
  match L with
  | .varint => cDecode 64 r
  | .fixedLE => fixedDecodeUsize false r
  | .fixedBE => fixedDecodeUsize true r

/-- Modelled from the spec: the `L`-policy encoding of a length or count. -/
def usizeEncode (L : LPol) (n : Nat) : List Nat :=
  match L with
  | .varint => cEncode n
  | .fixedLE => leBytes 8 n
  | .fixedBE => (leBytes 8 n).reverse

/-! ## decode_option (wire decoder) -/

/-- Source `WireDecoder::decode_option`: reads one tag byte; `Tag(Sequence,0)`
is none, `Tag(Sequence,1)` is some, anything else is an `ExpectedOption` error
at the position one before the post-read position (`pos().saturating_sub(1)`). -/
def decode_option (r : Reader) : Except DecErr (Option Reader) :=
  match r.read_byte with
  | .error e => .error e
  | .ok (b, r1) =>
    if b = tagNew .seq 0 then .ok none
    else if b = tagNew .seq 1 then .ok (some r1)
    else .error (.expectedOpt b (r1.pos - 1))

/-- Claim C6: `decode_option` consumes exactly one tag byte; it returns `None`
exactly on byte `Tag(Sequence,0) = 128`, `Some` (continuing with the decoder
positioned after the tag) exactly on `Tag(Sequence,1) = 129`, and on every
other byte fails with `ExpectedOption` carrying the offending tag and the
position one less than the reader's current (post-read) position, which is the
position `p` of the tag byte itself. -/
theorem C6_decode_option (b : Nat) (rest : List Nat) (p : Nat) (hb : b < 256) :
    decode_option ⟨b :: rest, p⟩ =
      (if b = 128 then .ok none
       else if b = 129 then .ok (some ⟨rest, p + 1⟩)
       else .error (.expectedOpt b (p + 1 - 1))) ∧
    tagNew .seq 0 = 128 ∧ tagNew .seq 1 = 129 := by
  refine ⟨?_, rfl, rfl⟩
  unfold decode_option Reader.read_byte
  simp only [Nat.mod_eq_of_lt hb]
  rfl

/-- Witness for C6 at tag byte 130 (a two-element sequence marker, not an
option marker). -/
theorem C6_decode_option_witness :
    (130 < 256) ∧
    (decode_option ⟨[130, 7], 5⟩ =
       (if 130 = 128 then .ok none
        else if 130 = 129 then .ok (some ⟨[7], 5 + 1⟩)
        else .error (.expectedOpt 130 (5 + 1 - 1))) ∧
     tagNew .seq 0 = 128 ∧ tagNew .seq 1 = 129) :=
  ⟨by decide, C6_decode_option 130 [7] 5 (by decide)⟩

/-! ## Pair sequences and the remaining counter (wire decoder) -/

/-- Source `WireDecoder::decode_sequence_len`: read one tag, require kind
`Sequence`, resolve the raw count either from the inline data or from a
trailing `L`-encoded usize; on a kind mismatch report `Expected` at the
position of the tag byte. -/
def decode_sequence_len (L : LPol) (r : Reader) : Except DecErr (Nat × Reader) :=
  match r.read_byte with
  | .error e => .error e
  | .ok (b, r1) =>
    match tagKind b with
    | .seq =>
      match tagData b with
      | some len => .ok (len, r1)
      | none => decode_usize L r1
    | _ => .error (.expected (kindVal .seq) b (r1.pos - 1))

/-- Source `RemainingWireDecoder`: a sub-decoder wrapping the element counter
still to be decoded plus the underlying decoder. -/
structure RemainingWireDecoder where
  remaining : Nat
  decoder : Reader
deriving DecidableEq

/-- Source `WireDecoder::shared_decode_pair_sequence`: the remaining counter
of the returned sub-decoder is the raw sequence count divided by two. -/
def shared_decode_pair_sequence (L : LPol) (r : Reader) :
    Except DecErr RemainingWireDecoder :=
  match decode_sequence_len L r with
  | .error e => .error e
  | .ok (len, r1) => .ok ⟨len / 2, r1⟩

/-- Source `Decoder::decode_struct` for the wire decoder. -/
def decode_struct (L : LPol) (r : Reader) : Except DecErr RemainingWireDecoder :=
  shared_decode_pair_sequence L r

/-- Source `Decoder::decode_map` for the wire decoder. -/
def decode_map (L : LPol) (r : Reader) : Except DecErr RemainingWireDecoder :=
  shared_decode_pair_sequence L r

/-- Source `Decoder::decode_tuple` for the wire decoder. -/
def decode_tuple (L : LPol) (r : Reader) : Except DecErr RemainingWireDecoder :=
  shared_decode_pair_sequence L r

/-- Source `StructDecoder::size_hint` (also `MapDecoder::size_hint`):
reports the current remaining counter. -/
def size_hint (d : RemainingWireDecoder) : Option Nat :=
  some d.remaining

/-- Source `StructDecoder::decode_field` (same body as
`MapDecoder::decode_entry`): yields `none` when the counter is zero,
otherwise decrements it and hands out a field decoder over the shared
reader. -/
def decode_field (d : RemainingWireDecoder) : Option RemainingWireDecoder :=
  if d.remaining = 0 then none
  else some ⟨d.remaining - 1, d.decoder⟩

/-- Iterated `decode_field`, for counting how many times it yields a field. -/
def iter_fields : Nat → RemainingWireDecoder → Option RemainingWireDecoder
  | 0, d => some d
  | k + 1, d =>
    match decode_field d with
    | none => none
    | some d1 => iter_fields k d1

theorem iter_fields_spec (k : Nat) : ∀ d : RemainingWireDecoder,
    (k ≤ d.remaining →
       iter_fields k d = some ⟨d.remaining - k, d.decoder⟩) ∧
    (d.remaining < k → iter_fields k d = none) := by
  induction k with
  | zero =>
    intro d
    exact ⟨fun _ => by simp [iter_fields], fun h => by omega⟩
  | succ k ih =>
    intro d
    constructor
    · intro hk
      have hne : ¬ d.remaining = 0 := by omega
      simp only [iter_fields, decode_field, hne, if_neg, ite_false]
      have := (ih ⟨d.remaining - 1, d.decoder⟩).1 (by simp; omega)
      simp at this
      rw [this]
      congr 1
      simp
      omega
    · intro hk
      by_cases h0 : d.remaining = 0
      · simp [iter_fields, decode_field, h0]
      · simp only [iter_fields, decode_field, h0, if_neg, ite_false]
        exact (ih ⟨d.remaining - 1, d.decoder⟩).2 (by simp; omega)

/-- Claim C8: `decode_struct`, `decode_map` and `decode_tuple` all decode one
`Sequence` tag via `decode_sequence_len`, resolve the raw count and wrap the
payload in a decoder whose remaining counter is `raw / 2`; `decode_field`
then yields `Some` exactly `remaining` times, decrementing by one per call,
returns `None` exactly when the counter is zero, and `size_hint` always
reports the current counter. -/
theorem C8_pair_sequences (L : LPol) (r : Reader) (d : RemainingWireDecoder)
    (h : decode_struct L r = .ok d) :
    (∃ raw r1, decode_sequence_len L r = .ok (raw, r1) ∧
       d.remaining = raw / 2 ∧ d.decoder = r1) ∧
    decode_map L r = decode_struct L r ∧
    decode_tuple L r = decode_struct L r ∧
    (decode_field d = none ↔ d.remaining = 0) ∧
    (∀ k, k ≤ d.remaining →
       iter_fields k d = some ⟨d.remaining - k, d.decoder⟩ ∧
       size_hint ⟨d.remaining - k, d.decoder⟩ = some (d.remaining - k)) ∧
    (∀ k, d.remaining < k → iter_fields k d = none) := by
  refine ⟨?_, rfl, rfl, ?_, ?_, ?_⟩
  · unfold decode_struct shared_decode_pair_sequence at h
    cases hseq : decode_sequence_len L r with
    | error e => rw [hseq] at h; cases h
    | ok v =>
      rw [hseq] at h
      cases h
      exact ⟨v.1, v.2, rfl, rfl, rfl⟩
  · unfold decode_field
    by_cases h0 : d.remaining = 0
    · simp [h0]
    · simp [h0]
  · intro k hk
    exact ⟨(iter_fields_spec k d).1 hk, rfl⟩
  · intro k hk
    exact (iter_fields_spec k d).2 hk

/-- Witness for C8: one struct header byte with inline raw count 5 gives a
remaining counter of 2. -/
theorem C8_pair_sequences_witness :
    (decode_struct .varint ⟨[133, 7], 0⟩ = .ok ⟨2, ⟨[7], 1⟩⟩) ∧
    ((∃ raw r1, decode_sequence_len .varint ⟨[133, 7], 0⟩ = .ok (raw, r1) ∧
       (RemainingWireDecoder.mk 2 ⟨[7], 1⟩).remaining = raw / 2 ∧
       (RemainingWireDecoder.mk 2 ⟨[7], 1⟩).decoder = r1) ∧
     decode_map .varint ⟨[133, 7], 0⟩ = decode_struct .varint ⟨[133, 7], 0⟩ ∧
     decode_tuple .varint ⟨[133, 7], 0⟩ = decode_struct .varint ⟨[133, 7], 0⟩ ∧
     (decode_field ⟨2, ⟨[7], 1⟩⟩ = none ↔
        (RemainingWireDecoder.mk 2 ⟨[7], 1⟩).remaining = 0) ∧
     (∀ k, k ≤ (RemainingWireDecoder.mk 2 ⟨[7], 1⟩).remaining →
        iter_fields k ⟨2, ⟨[7], 1⟩⟩ =
          some ⟨(RemainingWireDecoder.mk 2 ⟨[7], 1⟩).remaining - k, ⟨[7], 1⟩⟩ ∧
        size_hint ⟨(RemainingWireDecoder.mk 2 ⟨[7], 1⟩).remaining - k, ⟨[7], 1⟩⟩ =
          some ((RemainingWireDecoder.mk 2 ⟨[7], 1⟩).remaining - k)) ∧
     (∀ k, (RemainingWireDecoder.mk 2 ⟨[7], 1⟩).remaining < k →
        iter_fields k ⟨2, ⟨[7], 1⟩⟩ = none)) :=
  ⟨rfl, C8_pair_sequences .varint ⟨[133, 7], 0⟩ ⟨2, ⟨[7], 1⟩⟩ rfl⟩

/-! ## skip_any (wire decoder) -/

/-- Source pattern `if let Some(len) = tag.data() { len } else { L::decode_usize }`:
resolve a length or count from the tag's inline data or the trailing
`L`-encoded usize. -/
def resolve_len (L : LPol) (b : Nat) (r : Reader) : Except DecErr (Nat × Reader) :=
  match tagData b with
  | some len => .ok (len, r)
  | none => decode_usize L r

mutual
/-- Source `WireDecoder::skip_any`, with an explicit recursion fuel: `none`
means the fuel ran out (the Rust recursion has no fuel; the totality theorem
shows `data.length + 1` fuel always suffices).  Reads one tag and dispatches
on its kind: `Byte` skips one extra byte only when the data is the sentinel;
`Prefix` resolves the length and skips that many bytes; `Sequence` resolves
the count and recurses that many times; `Continuation` decodes and discards
one `u128` varint only when the data is the sentinel. -/
def skip_any (L : LPol) (fuel : Nat) (r : Reader) : Option (Except DecErr Reader) :=
  match fuel with
  | 0 => none
  | fuel + 1 =>
    match r.read_byte with
    | .error e => some (.error e)
    | .ok (b, r1) =>
      match tagKind b with
      | .byte =>
        match tagData b with
        | none =>
          match r1.skip 1 with
          | .error e => some (.error e)
          | .ok r2 => some (.ok r2)
        | some _ => some (.ok r1)
      | .pfx =>
        match resolve_len L b r1 with
        | .error e => some (.error e)
        | .ok (len, r2) =>
          match r2.skip len with
          | .error e => some (.error e)
          | .ok r3 => some (.ok r3)
      | .seq =>
        match resolve_len L b r1 with
        | .error e => some (.error e)
        | .ok (len, r2) => skip_many L fuel len r2
      | .cont =>
        match tagData b with
        | none =>
          match cDecode 128 r1 with
          | .error e => some (.error e)
          | .ok (_, r2) => some (.ok r2)
        | some _ => some (.ok r1)
termination_by (fuel, 0)

/-- The `for _ in 0..len { self.skip_any()?; }` loop of the `Sequence` arm. -/
def skip_many (L : LPol) (fuel : Nat) (n : Nat) (r : Reader) :
    Option (Except DecErr Reader) :=
  match n with
  | 0 => some (.ok r)
  | n + 1 =>
    match skip_any L fuel r with
    | none => none
    | some (.error e) => some (.error e)
    | some (.ok r1) => skip_many L fuel n r1
termination_by (fuel, n + 1)
end

/-- The payload grammar of a validly encoded wire value, modelled from the
spec (section 6.1): one tag byte, then a payload dictated by the tag's kind
and by whether the data field holds the sentinel 63; lengths and counts
behind the sentinel are `L`-encoded usizes; a sentinel continuation payload
is one canonical varint fitting `u128`. -/
inductive Valid (L : LPol) : List Nat → Prop where
  | byteInline (d : Nat) (h : d < 63) : Valid L [d]
  | byteFollow (v : Nat) : Valid L [63, v]
  | pfxInline (d : Nat) (h : d < 63) (bs : List Nat) (hlen : bs.length = d) :
      Valid L ((64 + d) :: bs)
  | pfxBig (n : Nat) (hn : n < 2 ^ 64) (bs : List Nat) (hlen : bs.length = n) :
      Valid L (127 :: (usizeEncode L n ++ bs))
  | seqInline (d : Nat) (h : d < 63) (parts : List (List Nat))
      (hcnt : parts.length = d) (hp : ∀ q ∈ parts, Valid L q) :
      Valid L ((128 + d) :: parts.flatten)
  | seqBig (n : Nat) (hn : n < 2 ^ 64) (parts : List (List Nat))
      (hcnt : parts.length = n) (hp : ∀ q ∈ parts, Valid L q) :
      Valid L (191 :: (usizeEncode L n ++ parts.flatten))
  | contInline (d : Nat) (h : d < 63) : Valid L [192 + d]
  | contBig (n : Nat) (hn : n < 2 ^ 128) : Valid L (255 :: cEncode n)

theorem tagKind_byte (b : Nat) (h : b < 64) : tagKind b = .byte := by
  unfold tagKind
  rw [Nat.mod_eq_of_lt (by omega), Nat.div_eq_of_lt (by omega)]

theorem tagKind_pfx (b : Nat) (h1 : 64 ≤ b) (h2 : b < 128) : tagKind b = .pfx := by
  unfold tagKind
  rw [Nat.mod_eq_of_lt (by omega), show b / 64 = 1 by omega]

theorem tagKind_seq (b : Nat) (h1 : 128 ≤ b) (h2 : b < 192) : tagKind b = .seq := by
  unfold tagKind
  rw [Nat.mod_eq_of_lt (by omega), show b / 64 = 2 by omega]

theorem tagKind_cont (b : Nat) (h1 : 192 ≤ b) (h2 : b < 256) : tagKind b = .cont := by
  unfold tagKind
  rw [Nat.mod_eq_of_lt (by omega), show b / 64 = 3 by omega]

theorem tagData_some (b : Nat) (h : ¬ b % 64 = 63) : tagData b = some (b % 64) := by
  unfold tagData
  rw [if_neg h]

theorem tagData_none (b : Nat) (h : b % 64 = 63) : tagData b = none := by
  unfold tagData
  rw [if_pos h]

theorem read_byte_cons (b : Nat) (bs : List Nat) (p : Nat) :
    Reader.read_byte ⟨b :: bs, p⟩ = .ok (b % 256, ⟨bs, p + 1⟩) := rfl

theorem read_byte_nil (p : Nat) : Reader.read_byte ⟨[], p⟩ = .error .truncated := rfl

theorem skip_exact (bs rest : List Nat) (p : Nat) :
    Reader.skip ⟨bs ++ rest, p⟩ bs.length = .ok ⟨rest, p + bs.length⟩ := by
  unfold Reader.skip
  rw [if_pos (by simp)]
  rw [List.drop_left]

theorem cDecodeAux_encode (n : Nat) : ∀ (first : Bool) (rest : List Nat),
    (first = true ∨ 0 < n) → cDecodeAux first (cEncode n ++ rest) = some (n, rest) := by
  induction n using Nat.strong_induction_on with
  | _ n ih =>
    intro first rest hfirst
    by_cases h : n < 128
    · rw [cEncode, if_pos h]
      show cDecodeAux first (n :: rest) = some (n, rest)
      unfold cDecodeAux
      rw [Nat.mod_eq_of_lt (by omega), if_pos h]
      have hcond : ¬ (first = false ∧ n = 0) := by
        rintro ⟨hf, hz⟩
        rcases hfirst with h1 | h1
        · rw [h1] at hf; cases hf
        · omega
      rw [if_neg hcond]
    · rw [cEncode, if_neg h]
      show cDecodeAux first ((n % 128 + 128) :: (cEncode (n / 128) ++ rest)) = some (n, rest)
      unfold cDecodeAux
      have hb : (n % 128 + 128) % 256 = n % 128 + 128 := Nat.mod_eq_of_lt (by omega)
      rw [hb, if_neg (by omega)]
      rw [ih (n / 128) (Nat.div_lt_self (by omega) (by omega)) false rest
            (Or.inr (by omega))]
      have hv : (n % 128 + 128) % 128 + 128 * (n / 128) = n := by omega
      show some ((n % 128 + 128) % 128 + 128 * (n / 128), rest) = some (n, rest)
      rw [hv]

theorem cDecode_encode (W n : Nat) (hn : n < 2 ^ W) (rest : List Nat) (p : Nat) :
    cDecode W ⟨cEncode n ++ rest, p⟩ = .ok (n, ⟨rest, p + (cEncode n).length⟩) := by
  unfold cDecode
  rw [cDecodeAux_encode n true rest (Or.inl rfl)]
  have hlen : (cEncode n ++ rest).length - rest.length = (cEncode n).length := by
    simp
  show (if n < 2 ^ W then
          Except.ok (n, (⟨rest, p + ((cEncode n ++ rest).length - rest.length)⟩ : Reader))
        else Except.error DecErr.invalidCont) =
      Except.ok (n, (⟨rest, p + (cEncode n).length⟩ : Reader))
  rw [if_pos hn, hlen]

theorem leBytes_length (k : Nat) : ∀ n, (leBytes k n).length = k := by
  induction k with
  | zero => intro n; rfl
  | succ k ih => intro n; simp [leBytes, ih]

theorem leValue_leBytes (k : Nat) : ∀ n, n < 256 ^ k → leValue (leBytes k n) = n := by
  induction k with
  | zero =>
    intro n h
    simp at h
    simp [h, leBytes, leValue]
  | succ k ih =>
    intro n h
    have hdiv : n / 256 < 256 ^ k := by
      rw [Nat.div_lt_iff_lt_mul (by omega)]
      calc n < 256 ^ (k + 1) := h
      _ = 256 ^ k * 256 := by rw [Nat.pow_succ]
    show (n % 256) % 256 + 256 * leValue (leBytes k (n / 256)) = n
    rw [ih (n / 256) hdiv]
    omega

theorem decode_usize_encode (L : LPol) (n : Nat) (hn : n < 2 ^ 64)
    (rest : List Nat) (p : Nat) :
    decode_usize L ⟨usizeEncode L n ++ rest, p⟩ =
      .ok (n, ⟨rest, p + (usizeEncode L n).length⟩) := by
  have h256 : (256 : Nat) ^ 8 = 2 ^ 64 := by norm_num
  cases L with
  | varint => exact cDecode_encode 64 n hn rest p
  | fixedLE =>
    show fixedDecodeUsize false ⟨leBytes 8 n ++ rest, p⟩ = _
    unfold fixedDecodeUsize
    have hlen : (leBytes 8 n).length = 8 := leBytes_length 8 n
    rw [if_pos (by simp [hlen])]
    have htake : (leBytes 8 n ++ rest).take 8 = leBytes 8 n := by
      rw [← hlen]
      exact List.take_left _ _
    have hdrop : (leBytes 8 n ++ rest).drop 8 = rest := by
      rw [← hlen]
      exact List.drop_left _ _
    simp only [htake, hdrop, Bool.false_eq_true, if_neg, ite_false]
    rw [leValue_leBytes 8 n (by omega)]
    show _ = Except.ok (n, ⟨rest, p + (leBytes 8 n).length⟩)
    rw [hlen]
  | fixedBE =>
    show fixedDecodeUsize true ⟨(leBytes 8 n).reverse ++ rest, p⟩ = _
    unfold fixedDecodeUsize
    have hlen : (leBytes 8 n).reverse.length = 8 := by simp [leBytes_length]
    rw [if_pos (by simp [hlen])]
    have htake : ((leBytes 8 n).reverse ++ rest).take 8 = (leBytes 8 n).reverse := by
      rw [← hlen]
      exact List.take_left _ _
    have hdrop : ((leBytes 8 n).reverse ++ rest).drop 8 = rest := by
      rw [← hlen]
      exact List.drop_left _ _
    simp only [htake, hdrop, if_pos, ite_true, List.reverse_reverse]
    rw [leValue_leBytes 8 n (by omega)]
    show _ = Except.ok (n, ⟨rest, p + (leBytes 8 n).reverse.length⟩)
    rw [hlen]

theorem cDecodeAux_suffix_len : ∀ (l : List Nat) (first : Bool) (n : Nat)
    (rest : List Nat), cDecodeAux first l = some (n, rest) → rest.length < l.length := by
  intro l
  induction l with
  | nil =>
    intro first n rest h
    simp [cDecodeAux] at h
  | cons b bs ih =>
    intro first n rest h
    unfold cDecodeAux at h
    split at h
    · split at h
      · cases h
      · cases h
        simp
    · cases hrec : cDecodeAux false bs with
      | none =>
        simp only [hrec] at h
        cases h
      | some v =>
        obtain ⟨hi, r⟩ := v
        have hlen := ih false hi r hrec
        simp only [hrec] at h
        cases h
        simp
        omega

theorem cDecode_len (W : Nat) (r : Reader) (n : Nat) (r1 : Reader)
    (h : cDecode W r = .ok (n, r1)) : r1.data.length ≤ r.data.length := by
  unfold cDecode at h
  cases haux : cDecodeAux true r.data with
  | none =>
    simp only [haux] at h
    cases h
  | some v =>
    obtain ⟨m, rest⟩ := v
    have hlen := cDecodeAux_suffix_len r.data true m rest haux
    simp only [haux] at h
    split at h
    · cases h
      exact Nat.le_of_lt hlen
    · cases h

theorem decode_usize_len (L : LPol) (r : Reader) (n : Nat) (r1 : Reader)
    (h : decode_usize L r = .ok (n, r1)) : r1.data.length ≤ r.data.length := by
  cases L with
  | varint => exact cDecode_len 64 r n r1 h
  | fixedLE =>
    simp only [decode_usize] at h
    unfold fixedDecodeUsize at h
    split at h
    · cases h
      simp only [List.length_drop]
      omega
    · cases h
  | fixedBE =>
    simp only [decode_usize] at h
    unfold fixedDecodeUsize at h
    split at h
    · cases h
      simp only [List.length_drop]
      omega
    · cases h

theorem resolve_len_len (L : LPol) (b : Nat) (r : Reader) (len : Nat) (r2 : Reader)
    (h : resolve_len L b r = .ok (len, r2)) : r2.data.length ≤ r.data.length := by
  unfold resolve_len at h
  split at h
  · cases h
    exact le_rfl
  · exact decode_usize_len L r len r2 h

theorem skip_len (r : Reader) (n : Nat) (r1 : Reader)
    (h : Reader.skip r n = .ok r1) : r1.data.length ≤ r.data.length := by
  unfold Reader.skip at h
  split at h
  · cases h
    simp
  · cases h

theorem skip_consumes (L : LPol) : ∀ fuel : Nat,
    (∀ r r1, skip_any L fuel r = some (.ok r1) → r1.data.length < r.data.length) ∧
    (∀ n r r1, skip_many L fuel n r = some (.ok r1) → r1.data.length ≤ r.data.length) := by
  intro fuel
  induction fuel with
  | zero =>
    constructor
    · intro r r1 h
      rw [skip_any] at h
      cases h
    · intro n r r1 h
      cases n with
      | zero =>
        rw [skip_many] at h
        cases h
        exact le_rfl
      | succ n =>
        rw [skip_many, skip_any] at h
        cases h
  | succ fuel ih =>
    obtain ⟨ihA, ihM⟩ := ih
    have hA : ∀ r r1, skip_any L (fuel + 1) r = some (.ok r1) →
        r1.data.length < r.data.length := by
      intro r r1 h
      obtain ⟨data, pos⟩ := r
      cases data with
      | nil =>
        rw [skip_any] at h
        simp [read_byte_nil] at h
      | cons b bs =>
        rw [skip_any] at h
        simp only [read_byte_cons] at h
        cases hk : tagKind (b % 256) with
        | byte =>
          simp only [hk] at h
          cases ht : tagData (b % 256) with
          | none =>
            simp only [ht] at h
            cases hs : Reader.skip ⟨bs, pos + 1⟩ 1 with
            | error e =>
              simp only [hs] at h
              cases h
            | ok r2 =>
              simp only [hs] at h
              cases h
              unfold Reader.skip at hs
              split at hs
              · cases hs
                show (List.drop 1 bs).length < bs.length + 1
                simp only [List.length_drop]
                omega
              · cases hs
          | some d =>
            simp only [ht] at h
            cases h
            show bs.length < bs.length + 1
            omega
        | pfx =>
          simp only [hk] at h
          cases hres : resolve_len L (b % 256) ⟨bs, pos + 1⟩ with
          | error e =>
            simp only [hres] at h
            cases h
          | ok v =>
            obtain ⟨len, r2⟩ := v
            have hr2 : r2.data.length ≤ bs.length :=
              resolve_len_len L (b % 256) ⟨bs, pos + 1⟩ len r2 hres
            simp only [hres] at h
            cases hs : Reader.skip r2 len with
            | error e =>
              simp only [hs] at h
              cases h
            | ok r3 =>
              simp only [hs] at h
              cases h
              have hle := skip_len r2 len r1 hs
              show r1.data.length < bs.length + 1
              omega
        | seq =>
          simp only [hk] at h
          cases hres : resolve_len L (b % 256) ⟨bs, pos + 1⟩ with
          | error e =>
            simp only [hres] at h
            cases h
          | ok v =>
            obtain ⟨len, r2⟩ := v
            have hr2 : r2.data.length ≤ bs.length :=
              resolve_len_len L (b % 256) ⟨bs, pos + 1⟩ len r2 hres
            simp only [hres] at h
            have hle := ihM len r2 r1 h
            show r1.data.length < bs.length + 1
            omega
        | cont =>
          simp only [hk] at h
          cases ht : tagData (b % 256) with
          | none =>
            simp only [ht] at h
            cases hc : cDecode 128 ⟨bs, pos + 1⟩ with
            | error e =>
              simp only [hc] at h
              cases h
            | ok v =>
              obtain ⟨m, r2⟩ := v
              have hle : r2.data.length ≤ bs.length :=
                cDecode_len 128 ⟨bs, pos + 1⟩ m r2 hc
              simp only [hc] at h
              cases h
              show r1.data.length < bs.length + 1
              omega
          | some d =>
            simp only [ht] at h
            cases h
            show bs.length < bs.length + 1
            omega
    have hM : ∀ n r r1, skip_many L (fuel + 1) n r = some (.ok r1) →
        r1.data.length ≤ r.data.length := by
      intro n
      induction n with
      | zero =>
        intro r r1 h
        rw [skip_many] at h
        cases h
        exact le_rfl
      | succ n ihn =>
        intro r r1 h
        rw [skip_many] at h
        cases hs : skip_any L (fuel + 1) r with
        | none =>
          simp only [hs] at h
          cases h
        | some res =>
          cases res with
          | error e =>
            simp only [hs] at h
            cases h
          | ok rmid =>
            simp only [hs] at h
            have h1 := hA r rmid hs
            have h2 := ihn rmid r1 h
            omega
    exact ⟨hA, hM⟩

theorem skip_total (L : LPol) : ∀ fuel : Nat,
    (∀ r : Reader, r.data.length < fuel → (skip_any L fuel r).isSome) ∧
    (∀ (n : Nat) (r : Reader), r.data.length < fuel →
       (skip_many L fuel n r).isSome) := by
  intro fuel
  induction fuel with
  | zero =>
    constructor
    · intro r h
      omega
    · intro n r h
      omega
  | succ fuel ih =>
    obtain ⟨ihA, ihM⟩ := ih
    have hA : ∀ r : Reader, r.data.length < fuel + 1 →
        (skip_any L (fuel + 1) r).isSome := by
      intro r hr
      obtain ⟨data, pos⟩ := r
      rw [skip_any]
      cases data with
      | nil =>
        simp [read_byte_nil]
      | cons b bs =>
        have hr' : bs.length + 1 < fuel + 1 := hr
        simp only [read_byte_cons]
        cases hk : tagKind (b % 256) with
        | byte =>
          cases ht : tagData (b % 256) with
          | none =>
            cases hs : Reader.skip ⟨bs, pos + 1⟩ 1 with
            | error e => simp [hs]
            | ok r2 => simp [hs]
          | some d => simp
        | pfx =>
          cases hres : resolve_len L (b % 256) ⟨bs, pos + 1⟩ with
          | error e => simp [hres]
          | ok v =>
            obtain ⟨len, r2⟩ := v
            cases hs : Reader.skip r2 len with
            | error e => simp [hres, hs]
            | ok r3 => simp [hres, hs]
        | seq =>
          cases hres : resolve_len L (b % 256) ⟨bs, pos + 1⟩ with
          | error e => simp [hres]
          | ok v =>
            obtain ⟨len, r2⟩ := v
            have hr2 : r2.data.length ≤ bs.length :=
              resolve_len_len L (b % 256) ⟨bs, pos + 1⟩ len r2 hres
            simp only [hres]
            exact ihM len r2 (by omega)
        | cont =>
          cases ht : tagData (b % 256) with
          | none =>
            cases hc : cDecode 128 ⟨bs, pos + 1⟩ with
            | error e => simp [hc]
            | ok v =>
              obtain ⟨m, r2⟩ := v
              simp [hc]
          | some d => simp
    have hM : ∀ (n : Nat) (r : Reader), r.data.length < fuel + 1 →
        (skip_many L (fuel + 1) n r).isSome := by
      intro n
      induction n with
      | zero =>
        intro r hr
        rw [skip_many]
        rfl
      | succ n ihn =>
        intro r hr
        rw [skip_many]
        cases hs : skip_any L (fuel + 1) r with
        | none =>
          have := hA r hr
          rw [hs] at this
          cases this
        | some res =>
          cases res with
          | error e => simp
          | ok rmid =>
            have hlt := (skip_consumes L (fuel + 1)).1 r rmid hs
            simp only []
            exact ihn rmid (by omega)
    exact ⟨hA, hM⟩

/-- Claim C10: `skip_any` terminates on every finite input, well-formed or
malformed: with fuel `data.length + 1` (each recursion level consumes at
least the tag byte, so the nesting depth is bounded by the input length) the
traversal always reaches a result — `Ok` or an error — rather than running
out of fuel; in particular a `Sequence` count larger than the remaining
bytes exhausts the reader into an error rather than a loop. -/
theorem C10_skip_any_total (L : LPol) (r : Reader) :
    (skip_any L (r.data.length + 1) r).isSome :=
  (skip_total L (r.data.length + 1)).1 r (by omega)

theorem length_le_flatten (q : List Nat) : ∀ parts : List (List Nat),
    q ∈ parts → q.length ≤ parts.flatten.length := by
  intro parts
  induction parts with
  | nil =>
    intro hq
    simp at hq
  | cons a l ih =>
    intro hq
    rcases List.mem_cons.mp hq with h | h
    · subst h
      rw [List.flatten_cons, List.length_append]
      omega
    · have := ih h
      rw [List.flatten_cons, List.length_append]
      omega

theorem skip_many_parts (L : LPol) (fuel : Nat) : ∀ parts : List (List Nat),
    (∀ q ∈ parts, ∀ (rest' : List Nat) (p' f' : Nat), q.length < f' →
        skip_any L f' ⟨q ++ rest', p'⟩ = some (.ok ⟨rest', p' + q.length⟩)) →
    (∀ q ∈ parts, q.length < fuel) →
    ∀ (rest : List Nat) (p : Nat),
    skip_many L fuel parts.length ⟨parts.flatten ++ rest, p⟩ =
      some (.ok ⟨rest, p + parts.flatten.length⟩) := by
  intro parts
  induction parts with
  | nil =>
    intro hskip hlen rest p
    show skip_many L fuel 0 ⟨rest, p⟩ = some (.ok ⟨rest, p⟩)
    rw [skip_many]
  | cons q qs ih =>
    intro hskip hlen rest p
    have hq := hskip q (List.mem_cons_self q qs)
    show skip_many L fuel (qs.length + 1) ⟨(q ++ qs.flatten) ++ rest, p⟩ =
      some (.ok ⟨rest, p + (q ++ qs.flatten).length⟩)
    rw [skip_many, List.append_assoc]
    rw [hq (qs.flatten ++ rest) p fuel (hlen q (List.mem_cons_self q qs))]
    show skip_many L fuel qs.length ⟨qs.flatten ++ rest, p + q.length⟩ =
      some (.ok ⟨rest, p + (q ++ qs.flatten).length⟩)
    rw [ih (fun a ha => hskip a (List.mem_cons_of_mem q ha))
          (fun a ha => hlen a (List.mem_cons_of_mem q ha))]
    rw [List.length_append]
    rw [show p + q.length + qs.flatten.length = p + (q.length + qs.flatten.length)
          from by omega]

theorem skip_any_valid (L : LPol) (enc : List Nat) (hv : Valid L enc) :
    ∀ (rest : List Nat) (p fuel : Nat), enc.length < fuel →
    skip_any L fuel ⟨enc ++ rest, p⟩ = some (.ok ⟨rest, p + enc.length⟩) := by
  induction hv with
  | byteInline d hd =>
    intro rest p fuel hf
    cases fuel with
    | zero => simp at hf
    | succ fuel =>
      rw [skip_any]
      simp only [List.cons_append, List.nil_append, read_byte_cons,
        Nat.mod_eq_of_lt (show d < 256 by omega), tagKind_byte d (by omega),
        tagData_some d (by omega), List.length_cons, List.length_nil]
  | byteFollow v =>
    intro rest p fuel hf
    cases fuel with
    | zero => simp at hf
    | succ fuel =>
      rw [skip_any]
      have hs : Reader.skip ⟨v :: rest, p + 1⟩ 1 = .ok ⟨rest, p + 1 + 1⟩ := by
        unfold Reader.skip
        rw [if_pos (by simp)]
        rfl
      simp only [List.cons_append, List.nil_append, read_byte_cons,
        show (63 : Nat) % 256 = 63 from rfl, tagKind_byte 63 (by omega),
        tagData_none 63 (by omega), hs, List.length_cons, List.length_nil]
  | pfxInline d hd bs hlen =>
    intro rest p fuel hf
    cases fuel with
    | zero => simp at hf
    | succ fuel =>
      rw [skip_any]
      have hres : resolve_len L (64 + d) ⟨bs ++ rest, p + 1⟩ =
          .ok (d, ⟨bs ++ rest, p + 1⟩) := by
        unfold resolve_len
        rw [tagData_some (64 + d) (by omega), show (64 + d) % 64 = d by omega]
      have hs : Reader.skip ⟨bs ++ rest, p + 1⟩ d = .ok ⟨rest, p + 1 + d⟩ := by
        rw [← hlen]
        exact skip_exact bs rest (p + 1)
      simp only [List.cons_append, read_byte_cons,
        Nat.mod_eq_of_lt (show 64 + d < 256 by omega), tagKind_pfx (64 + d) (by omega)
          (by omega), hres, hs, List.length_cons]
      rw [show p + 1 + d = p + (bs.length + 1) from by omega]
  | pfxBig n hn bs hlen =>
    intro rest p fuel hf
    cases fuel with
    | zero => simp at hf
    | succ fuel =>
      rw [skip_any]
      have hres : resolve_len L 127 ⟨usizeEncode L n ++ (bs ++ rest), p + 1⟩ =
          .ok (n, ⟨bs ++ rest, p + 1 + (usizeEncode L n).length⟩) := by
        unfold resolve_len
        rw [tagData_none 127 (by omega)]
        exact decode_usize_encode L n hn (bs ++ rest) (p + 1)
      have hs : Reader.skip ⟨bs ++ rest, p + 1 + (usizeEncode L n).length⟩ n =
          .ok ⟨rest, p + 1 + (usizeEncode L n).length + n⟩ := by
        rw [← hlen]
        exact skip_exact bs rest _
      simp only [List.cons_append, List.append_assoc, read_byte_cons,
        show (127 : Nat) % 256 = 127 from rfl, tagKind_pfx 127 (by omega) (by omega),
        hres, hs, List.length_cons, List.length_append]
      rw [show p + 1 + (usizeEncode L n).length + n =
            p + ((usizeEncode L n).length + bs.length + 1) from by omega]
  | seqInline d hd parts hcnt hp ih =>
    intro rest p fuel hf
    cases fuel with
    | zero => simp at hf
    | succ fuel =>
      rw [skip_any]
      have hres : resolve_len L (128 + d) ⟨parts.flatten ++ rest, p + 1⟩ =
          .ok (d, ⟨parts.flatten ++ rest, p + 1⟩) := by
        unfold resolve_len
        rw [tagData_some (128 + d) (by omega), show (128 + d) % 64 = d by omega]
      simp only [List.cons_append, read_byte_cons,
        Nat.mod_eq_of_lt (show 128 + d < 256 by omega),
        tagKind_seq (128 + d) (by omega) (by omega), hres, List.length_cons]
      have hflen : parts.flatten.length + 1 < fuel + 1 := by
        simp only [List.length_cons] at hf
        omega
      rw [← hcnt]
      rw [skip_many_parts L fuel parts ih
            (fun q hq => by have := length_le_flatten q parts hq; omega)
            rest (p + 1)]
      rw [show p + 1 + parts.flatten.length = p + (parts.flatten.length + 1)
            from by omega]
  | seqBig n hn parts hcnt hp ih =>
    intro rest p fuel hf
    cases fuel with
    | zero => simp at hf
    | succ fuel =>
      rw [skip_any]
      have hres : resolve_len L 191 ⟨usizeEncode L n ++ (parts.flatten ++ rest), p + 1⟩ =
          .ok (n, ⟨parts.flatten ++ rest, p + 1 + (usizeEncode L n).length⟩) := by
        unfold resolve_len
        rw [tagData_none 191 (by omega)]
        exact decode_usize_encode L n hn (parts.flatten ++ rest) (p + 1)
      simp only [List.cons_append, List.append_assoc, read_byte_cons,
        show (191 : Nat) % 256 = 191 from rfl, tagKind_seq 191 (by omega) (by omega),
        hres, List.length_cons, List.length_append]
      have hflen : (usizeEncode L n).length + (parts.flatten.length + 1) < fuel + 1 := by
        simp only [List.length_cons, List.length_append] at hf
        omega
      nth_rewrite 1 [← hcnt]
      rw [skip_many_parts L fuel parts ih
            (fun q hq => by have := length_le_flatten q parts hq; omega)
            rest (p + 1 + (usizeEncode L n).length)]
      rw [show p + 1 + (usizeEncode L n).length + parts.flatten.length =
            p + ((usizeEncode L n).length + parts.flatten.length + 1) from by omega]
  | contInline d hd =>
    intro rest p fuel hf
    cases fuel with
    | zero => simp at hf
    | succ fuel =>
      rw [skip_any]
      simp only [List.cons_append, List.nil_append, read_byte_cons,
        Nat.mod_eq_of_lt (show 192 + d < 256 by omega),
        tagKind_cont (192 + d) (by omega) (by omega),
        tagData_some (192 + d) (by omega), List.length_cons, List.length_nil]
  | contBig n hn =>
    intro rest p fuel hf
    cases fuel with
    | zero => simp at hf
    | succ fuel =>
      rw [skip_any]
      have hc : cDecode 128 ⟨cEncode n ++ rest, p + 1⟩ =
          .ok (n, ⟨rest, p + 1 + (cEncode n).length⟩) :=
        cDecode_encode 128 n hn rest (p + 1)
      simp only [List.cons_append, read_byte_cons,
        show (255 : Nat) % 256 = 255 from rfl, tagKind_cont 255 (by omega) (by omega),
        tagData_none 255 (by omega), hc, List.length_cons]
      rw [show p + 1 + (cEncode n).length = p + ((cEncode n).length + 1) from by omega]

/-- Claim C1: skipping a validly encoded value consumes exactly its encoding:
for any value encoded per the wire grammar (`Valid`) at offset `p` under
usize policy `L` (the integer policy does not occur in the skip path — the
grammar's continuation payloads are self-delimiting varints), `skip_any`
returns `Ok` and leaves the reader positioned at the byte immediately after
the last byte of the encoding, dispatching per kind exactly as the claim
describes. -/
theorem C1_skip_any (L : LPol) (enc rest : List Nat) (p fuel : Nat)
    (hv : Valid L enc) (hf : enc.length < fuel) :
    skip_any L fuel ⟨enc ++ rest, p⟩ = some (.ok ⟨rest, p + enc.length⟩) :=
  skip_any_valid L enc hv rest p fuel hf

/-- Witness for C1: a two-element sequence `[130, 5, 64]` (inline count 2:
one inline byte scalar, one empty prefix) followed by the byte `9`. -/
theorem C1_skip_any_witness :
    (Valid LPol.varint [130, 5, 64] ∧ List.length [130, 5, 64] < 4) ∧
    skip_any LPol.varint 4 ⟨[130, 5, 64] ++ [9], 0⟩ =
      some (.ok ⟨[9], 0 + List.length [130, 5, 64]⟩) := by
  have hvalid : Valid LPol.varint [130, 5, 64] := by
    have h := Valid.seqInline (L := LPol.varint) 2 (by omega) [[5], [64]] rfl (by
      intro q hq
      simp only [List.mem_cons, List.not_mem_nil, or_false] at hq
      rcases hq with h | h
      · subst h
        exact Valid.byteInline 5 (by omega)
      · subst h
        exact Valid.pfxInline 0 (by omega) [] rfl)
    exact h
  exact ⟨⟨hvalid, by decide⟩,
    C1_skip_any LPol.varint [130, 5, 64] [9] 0 4 hvalid (by decide)⟩

/-! ## PHF generator (compress-hash-displace) -/

/-- Per-key hash triple `Hashes { g, f1, f2 }`.  The hashing helpers
(`phf/hashing.rs`) are not in the snapshot, so keys are represented directly
by their hash triples (modelled from the spec: per-key triple derived from a
64-bit `HashKey`). -/
structure Hashes where
  g : Nat
  f1 : Nat
  f2 : Nat
deriving DecidableEq

/-- Modelled from the spec: `displace(f1, f2, d1, d2) = (d1 ^ f1) + (d2 ^ f2)`
computed as wrapping `u32`. -/
def displace (f1 f2 d1 d2 : Nat) : Nat :=
  ((d1 ^^^ f1) + (d2 ^^^ f2)) % 2 ^ 32

/-- The sentinel `usize::MAX` marking an unassigned map cell. -/
def USIZE_MAX : Nat := 2 ^ 64 - 1

/-- Source `HashState { key, map }` returned by `try_generate_hash`. -/
structure HashState where
  key : Nat
  map : List Nat
deriving DecidableEq

/-- The bucket-partition loop of `try_generate_hash`: push each entry index
into the bucket selected by `g % buckets.len()`. -/
def buildBucketsAux : List Hashes → Nat → List (List Nat) → List (List Nat)
  | [], _, buckets => buckets
  | h :: hs, index, buckets =>
    buildBucketsAux hs (index + 1)
      (buckets.set (h.g % buckets.length)
        (buckets.getD (h.g % buckets.length) [] ++ [index]))

/-- Buckets of entry indices, `displacements.len()` of them. -/
def buildBuckets (hashes : List Hashes) (dLen : Nat) : List (List Nat) :=
  buildBucketsAux hashes 0 (List.replicate dLen [])

/-- Stable insertion of a bucket by length (ascending). -/
def insertByLen (x : List Nat) : List (List Nat) → List (List Nat)
  | [] => [x]
  | y :: ys => if x.length ≤ y.length then x :: y :: ys else y :: insertByLen x ys

/-- Source `buckets.sort_by_key(|a| a.len())`: Rust's stable ascending sort;
stable sorts agree on their output, so stable insertion sort embeds it. -/
def sortByLen : List (List Nat) → List (List Nat)
  | [] => []
  | x :: xs => insertByLen x (sortByLen xs)

/-- The innermost pass of one `(d1, d2)` attempt: walk the bucket, compute
each slot, abandon (returning the stamped `try_map`) if the slot is already
committed in `map` or already stamped with the current generation, else stamp
it and record the `(slot, entry)` pair. -/
def placeKeys (hashes : List Hashes) (tableLen : Nat) (map : List Nat)
    (gen d1 d2 : Nat) :
    List Nat → List Nat → List (Nat × Nat) →
    Option (List (Nat × Nat)) × List Nat
  | [], tryMap, values => (some values, tryMap)
  | key :: bucket, tryMap, values =>
    let h := hashes.getD key ⟨0, 0, 0⟩
    let index := displace h.f1 h.f2 d1 d2 % tableLen
    if map.getD index 0 ≠ USIZE_MAX ∨ tryMap.getD index 0 = gen then
      (none, tryMap)
    else
      placeKeys hashes tableLen map gen d1 d2 bucket
        (tryMap.set index gen) (values ++ [(index, key)])

/-- The `d2` loop: each iteration bumps the generation and retries. -/
def innerLoop (hashes : List Hashes) (tableLen : Nat) (map : List Nat)
    (bucket : List Nat) (d1 : Nat) :
    List Nat → List Nat → Nat →
    Option (Nat × List (Nat × Nat)) × List Nat × Nat
  | [], tryMap, gen => (none, tryMap, gen)
  | d2 :: ds, tryMap, gen =>
    match placeKeys hashes tableLen map (gen + 1) d1 d2 bucket tryMap [] with
    | (some values, tryMap1) => (some (d2, values), tryMap1, gen + 1)
    | (none, tryMap1) => innerLoop hashes tableLen map bucket d1 ds tryMap1 (gen + 1)

/-- The `d1` loop over the same `0..(table_len as u32)` range. -/
def outerLoop (hashes : List Hashes) (tableLen : Nat) (map : List Nat)
    (bucket : List Nat) :
    List Nat → List Nat → Nat →
    Option (Nat × Nat × List (Nat × Nat)) × List Nat × Nat
  | [], tryMap, gen => (none, tryMap, gen)
  | d1 :: ds, tryMap, gen =>
    match innerLoop hashes tableLen map bucket d1
        (List.range (tableLen % 2 ^ 32)) tryMap gen with
    | (some (d2, values), tryMap1, gen1) => (some (d1, d2, values), tryMap1, gen1)
    | (none, tryMap1, gen1) => outerLoop hashes tableLen map bucket ds tryMap1 gen1

/-- Copy the recorded `(slot, entry)` pairs into the map. -/
def commitVals (map : List Nat) (values : List (Nat × Nat)) : List Nat :=
  values.foldl (fun m iv => m.set iv.1 iv.2) map

/-- The per-bucket placement loop of `try_generate_hash`, pairing buckets in
iteration order with displacement slots (the `zip`); returns the final map
and the committed `(d1, d2)` entries (the buffer writes), or `none` when some
bucket exhausts both displacement loops. -/
def processBuckets (hashes : List Hashes) (tableLen : Nat) :
    List (List Nat) → List Nat → List Nat → Nat →
    Option (List Nat × List (Nat × Nat))
  | [], map, _, _ => some (map, [])
  | bucket :: bs, map, tryMap, gen =>
    match outerLoop hashes tableLen map bucket
        (List.range (tableLen % 2 ^ 32)) tryMap gen with
    | (none, _, _) => none
    | (some (d1, d2, values), tryMap1, gen1) =>
      match processBuckets hashes tableLen bs (commitVals map values) tryMap1 gen1 with
      | none => none
      | some (map1, disps) => some (map1, (d1, d2) :: disps)

/-- Source `try_generate_hash` (entries represented by their hash triples,
the buffer's displacement writes returned as a list): partition into buckets,
sort ascending by size, and place bucket after bucket in that order. -/
def try_generate_hash (hashes : List Hashes) (dLen : Nat) (key : Nat) :
    Option (HashState × List (Nat × Nat)) :=
  match processBuckets hashes hashes.length
      (sortByLen (buildBuckets hashes dLen))
      (List.replicate hashes.length USIZE_MAX)
      (List.replicate hashes.length 0) 0 with
  | none => none
  | some (map, disps) => some (⟨key, map⟩, disps)

/-- The variant claimed in the spec text for C4: identical except that the
sorted buckets are iterated in reversed order (largest first) when zipping
over the displacement slots. -/
def try_generate_hash_claimed (hashes : List Hashes) (dLen : Nat) (key : Nat) :
    Option (HashState × List (Nat × Nat)) :=
  match processBuckets hashes hashes.length
      (sortByLen (buildBuckets hashes dLen)).reverse
      (List.replicate hashes.length USIZE_MAX)
      (List.replicate hashes.length 0) 0 with
  | none => none
  | some (map, disps) => some (⟨key, map⟩, disps)

/-- Source constant `FIXED_SEED`. -/
def FIXED_SEED : Nat := 1234567890

/-- One SplitMix64 state advance. -/
def smNext (s : Nat) : Nat := (s + 0x9E3779B97F4A7C15) % 2 ^ 64

/-- SplitMix64 output mix. -/
def smOut (s : Nat) : Nat :=
  let z := ((s ^^^ (s >>> 30)) * 0xBF58476D1CE4E5B9) % 2 ^ 64
  let z := ((z ^^^ (z >>> 27)) * 0x94D049BB133111EB) % 2 ^ 64
  z ^^^ (z >>> 31)

/-- SplitMix64 state after `i + 1` advances from the seed. -/
def smState (seed : Nat) : Nat → Nat
  | 0 => smNext (seed % 2 ^ 64)
  | i + 1 => smNext (smState seed i)

/-- Modelled from the spec: the candidate `HashKey` sequence drawn from the
deterministic PRNG seeded with `FIXED_SEED`.  The rand crate's `SmallRng` is
outside this repository; the spec requires only a deterministic function of
the seed, for which SplitMix64 stands in. -/
def keyStream (seed i : Nat) : Nat := smOut (smState seed i)

/-- Source `generate_hash`: draw candidate keys in sequence from the PRNG
seeded with `FIXED_SEED`, computing each candidate's per-entry hashes
(`hashFn`, standing for `hash(buf, key(entry), candidate)`), and return the
first candidate on which `try_generate_hash` succeeds.  `fuel` bounds the
unbounded Rust loop; `i` is the index of the next candidate to draw. -/
def generate_hash (hashFn : Nat → List Hashes) (dLen : Nat) :
    Nat → Nat → Option (HashState × List (Nat × Nat))
  | 0, _ => none
  | fuel + 1, i =>
    match try_generate_hash (hashFn (keyStream FIXED_SEED i)) dLen
        (keyStream FIXED_SEED i) with
    | some st => some st
    | none => generate_hash hashFn dLen fuel (i + 1)

theorem insertByLen_perm (x : List Nat) : ∀ l : List (List Nat),
    (insertByLen x l).Perm (x :: l) := by
  intro l
  induction l with
  | nil => exact List.Perm.refl _
  | cons y ys ih =>
    unfold insertByLen
    split
    · exact List.Perm.refl _
    · exact (ih.cons y).trans (List.Perm.swap x y ys)

theorem sortByLen_perm : ∀ l : List (List Nat), (sortByLen l).Perm l := by
  intro l
  induction l with
  | nil => exact List.Perm.refl _
  | cons x xs ih =>
    exact (insertByLen_perm x (sortByLen xs)).trans (ih.cons x)

theorem insertByLen_sorted (x : List Nat) : ∀ l : List (List Nat),
    List.Sorted (fun a b : List Nat => a.length ≤ b.length) l →
    List.Sorted (fun a b : List Nat => a.length ≤ b.length) (insertByLen x l) := by
  intro l
  induction l with
  | nil =>
    intro h
    simp [insertByLen]
  | cons y ys ih =>
    intro h
    rw [List.sorted_cons] at h
    obtain ⟨hy, hys⟩ := h
    unfold insertByLen
    split
    · rename_i hle
      rw [List.sorted_cons]
      refine ⟨?_, by rw [List.sorted_cons]; exact ⟨hy, hys⟩⟩
      intro b hb
      rcases List.mem_cons.mp hb with h | h
      · subst h
        exact hle
      · exact le_trans hle (hy b h)
    · rename_i hgt
      rw [List.sorted_cons]
      constructor
      · intro b hb
        have hmem := (insertByLen_perm x ys).mem_iff.mp hb
        rcases List.mem_cons.mp hmem with h | h
        · subst h
          omega
        · exact hy b h
      · exact ih hys

theorem sortByLen_sorted : ∀ l : List (List Nat),
    List.Sorted (fun a b : List Nat => a.length ≤ b.length) (sortByLen l) := by
  intro l
  induction l with
  | nil => simp [sortByLen]
  | cons x xs ih => exact insertByLen_sorted x (sortByLen xs) ih

/-- Claim C4, amended: the buckets are sorted ascending by size, and the
placement loop pairs the sorted buckets with displacement slots in that
ascending order — the smallest bucket is assigned first, not the largest;
there is no reversal before the zip. -/
theorem C4_buckets_sorted_ascending (hashes : List Hashes) (dLen key : Nat) :
    List.Sorted (fun a b : List Nat => a.length ≤ b.length)
      (sortByLen (buildBuckets hashes dLen)) ∧
    (sortByLen (buildBuckets hashes dLen)).Perm (buildBuckets hashes dLen) ∧
    try_generate_hash hashes dLen key =
      (match processBuckets hashes hashes.length
          (sortByLen (buildBuckets hashes dLen))
          (List.replicate hashes.length USIZE_MAX)
          (List.replicate hashes.length 0) 0 with
       | none => none
       | some (map, disps) => some (⟨key, map⟩, disps)) :=
  ⟨sortByLen_sorted _, sortByLen_perm _, rfl⟩

/-- Six entries: four in the bucket `g = 0`, two in the bucket `g = 1`, with
`f1` chosen so the two orders interfere on slots 0 and 1. -/
def exampleHashes : List Hashes :=
  [⟨0, 0, 0⟩, ⟨0, 1, 0⟩, ⟨0, 2, 0⟩, ⟨0, 3, 0⟩, ⟨1, 0, 0⟩, ⟨1, 1, 0⟩]

/-- Counterexample for C4 as stated: iterating the sorted buckets in
reversed order (largest first, as the claim says) produces a different map
and different displacements than the source's ascending-order iteration, so
the claim's "reversed iteration" does not describe the code. -/
theorem C4_counterexample :
    try_generate_hash exampleHashes 2 0 =
      some (⟨0, [4, 5, 0, 1, 2, 3]⟩, [(0, 0), (0, 2)]) ∧
    try_generate_hash_claimed exampleHashes 2 0 =
      some (⟨0, [0, 1, 2, 3, 4, 5]⟩, [(0, 0), (0, 4)]) ∧
    try_generate_hash exampleHashes 2 0 ≠ try_generate_hash_claimed exampleHashes 2 0 := by
  refine ⟨by decide, by decide, by decide⟩

theorem try_generate_hash_key (hashes : List Hashes) (dLen key : Nat)
    (st : HashState × List (Nat × Nat))
    (h : try_generate_hash hashes dLen key = some st) : st.1.key = key := by
  unfold try_generate_hash at h
  cases hpb : processBuckets hashes hashes.length
      (sortByLen (buildBuckets hashes dLen))
      (List.replicate hashes.length USIZE_MAX)
      (List.replicate hashes.length 0) 0 with
  | none =>
    simp only [hpb] at h
    cases h
  | some v =>
    obtain ⟨map, disps⟩ := v
    simp only [hpb] at h
    cases h
    rfl

theorem generate_hash_first (hashFn : Nat → List Hashes) (dLen : Nat)
    (st : HashState × List (Nat × Nat)) :
    ∀ (fuel i0 i : Nat), i0 ≤ i → i < i0 + fuel →
    (∀ j, i0 ≤ j → j < i →
       try_generate_hash (hashFn (keyStream FIXED_SEED j)) dLen
         (keyStream FIXED_SEED j) = none) →
    try_generate_hash (hashFn (keyStream FIXED_SEED i)) dLen
      (keyStream FIXED_SEED i) = some st →
    generate_hash hashFn dLen fuel i0 = some st := by
  intro fuel
  induction fuel with
  | zero =>
    intro i0 i h1 h2 _ _
    omega
  | succ fuel ih =>
    intro i0 i h1 h2 hfail hsucc
    rw [generate_hash]
    by_cases hi : i = i0
    · subst hi
      simp only [hsucc]
    · have hfail0 := hfail i0 le_rfl (by omega)
      simp only [hfail0]
      exact ih (i0 + 1) i (by omega) (by omega)
        (fun j hj1 hj2 => hfail j (by omega) hj2) hsucc

/-- Claim C5: `generate_hash` is deterministic — its result is a function of
the entries and layout alone, because the candidate `HashKey`s are drawn in
sequence from the PRNG seeded with the fixed constant `FIXED_SEED = 1234567890`
and the first succeeding candidate is returned: if the first `i` candidates of
that fixed stream fail and candidate `i` succeeds, the run starting at
candidate 0 returns exactly that success, whose stored key is the stream's
`i`-th element. -/
theorem C5_generate_hash_deterministic (hashFn : Nat → List Hashes)
    (dLen fuel i : Nat) (st : HashState × List (Nat × Nat))
    (hi : i < fuel)
    (hfail : ∀ j < i, try_generate_hash (hashFn (keyStream FIXED_SEED j)) dLen
        (keyStream FIXED_SEED j) = none)
    (hsucc : try_generate_hash (hashFn (keyStream FIXED_SEED i)) dLen
        (keyStream FIXED_SEED i) = some st) :
    generate_hash hashFn dLen fuel 0 = some st ∧
    st.1.key = keyStream FIXED_SEED i :=
  ⟨generate_hash_first hashFn dLen st fuel 0 i (by omega) (by omega)
      (fun j _ hj => hfail j hj) hsucc,
   try_generate_hash_key _ _ _ st hsucc⟩

/-- Witness for C5: one entry, one displacement slot, first candidate
succeeds immediately. -/
theorem C5_generate_hash_deterministic_witness :
    (0 < 1 ∧
     (∀ j < 0, try_generate_hash ((fun _ => [⟨0, 0, 0⟩]) (keyStream FIXED_SEED j)) 1
        (keyStream FIXED_SEED j) = none) ∧
     try_generate_hash ((fun _ => [⟨0, 0, 0⟩]) (keyStream FIXED_SEED 0)) 1
        (keyStream FIXED_SEED 0) =
       some (⟨keyStream FIXED_SEED 0, [0]⟩, [(0, 0)])) ∧
    (generate_hash (fun _ => [⟨0, 0, 0⟩]) 1 1 0 =
       some (⟨keyStream FIXED_SEED 0, [0]⟩, [(0, 0)]) ∧
     (HashState.mk (keyStream FIXED_SEED 0) [0], [((0 : Nat), (0 : Nat))]).1.key =
       keyStream FIXED_SEED 0) :=
  ⟨⟨by omega, fun j hj => absurd hj (by omega), rfl⟩,
   C5_generate_hash_deterministic (fun _ => [⟨0, 0, 0⟩]) 1 1 0
     (⟨keyStream FIXED_SEED 0, [0]⟩, [(0, 0)]) (by omega)
     (fun j hj => absurd hj (by omega)) rfl⟩

theorem getD_set_self (l : List Nat) (i v : Nat) (h : i < l.length) :
    (l.set i v).getD i 0 = v := by
  rw [List.getD_eq_getElem?_getD, List.getElem?_set_self h]
  rfl

theorem getD_set_other (l : List Nat) (i j v : Nat) (h : i ≠ j) :
    (l.set i v).getD j 0 = l.getD j 0 := by
  rw [List.getD_eq_getElem?_getD, List.getElem?_set_ne h, ← List.getD_eq_getElem?_getD]

theorem count_set_add : ∀ (l : List Nat) (i v x : Nat), i < l.length →
    (l.set i v).count x + (if l.getD i 0 = x then 1 else 0)
      = l.count x + (if v = x then 1 else 0) := by
  intro l
  induction l with
  | nil =>
    intro i v x h
    simp at h
  | cons a l ih =>
    intro i v x h
    cases i with
    | zero =>
      show (v :: l).count x + (if a = x then 1 else 0) =
        (a :: l).count x + (if v = x then 1 else 0)
      simp only [List.count_cons, beq_iff_eq]
      split_ifs <;> omega
    | succ i =>
      show (a :: l.set i v).count x + (if l.getD i 0 = x then 1 else 0) =
        (a :: l).count x + (if v = x then 1 else 0)
      simp only [List.count_cons, beq_iff_eq]
      have hih := ih i v x (by simpa using h)
      split_ifs at hih ⊢ <;> omega

theorem getD_set_cases (l : List Nat) (i j v : Nat) :
    (l.set i v).getD j 0 = l.getD j 0 ∨ ((l.set i v).getD j 0 = v ∧ i = j) := by
  by_cases hij : i = j
  · subst hij
    by_cases hlt : i < l.length
    · exact Or.inr ⟨getD_set_self l i v hlt, rfl⟩
    · left
      rw [List.set_eq_of_length_le (by omega)]
  · exact Or.inl (getD_set_other l i j v hij)

theorem placeKeys_stamps (hashes : List Hashes) (tableLen : Nat) (map : List Nat)
    (gen d1 d2 : Nat) : ∀ (bucket tryMap : List Nat) (values : List (Nat × Nat)),
    (placeKeys hashes tableLen map gen d1 d2 bucket tryMap values).2.length =
      tryMap.length ∧
    (∀ i, (placeKeys hashes tableLen map gen d1 d2 bucket tryMap values).2.getD i 0 =
        tryMap.getD i 0 ∨
      (placeKeys hashes tableLen map gen d1 d2 bucket tryMap values).2.getD i 0 = gen) := by
  intro bucket
  induction bucket with
  | nil =>
    intro tryMap values
    exact ⟨rfl, fun i => Or.inl rfl⟩
  | cons key bucket ih =>
    intro tryMap values
    rw [placeKeys]
    split
    · exact ⟨rfl, fun i => Or.inl rfl⟩
    · have hih := ih (tryMap.set (displace (hashes.getD key ⟨0, 0, 0⟩).f1
        (hashes.getD key ⟨0, 0, 0⟩).f2 d1 d2 % tableLen) gen)
        (values ++ [(displace (hashes.getD key ⟨0, 0, 0⟩).f1
          (hashes.getD key ⟨0, 0, 0⟩).f2 d1 d2 % tableLen, key)])
      constructor
      · rw [hih.1, List.length_set]
      · intro i
        rcases hih.2 i with h | h
        · rw [h]
          rcases getD_set_cases tryMap (displace (hashes.getD key ⟨0, 0, 0⟩).f1
              (hashes.getD key ⟨0, 0, 0⟩).f2 d1 d2 % tableLen) i gen with h2 | h2
          · exact Or.inl h2
          · exact Or.inr h2.1
        · exact Or.inr h

theorem placeKeys_spec (hashes : List Hashes) (tableLen : Nat) (map : List Nat)
    (gen d1 d2 : Nat) (h0 : 0 < tableLen) :
    ∀ (bucket tryMap : List Nat) (values values' : List (Nat × Nat)) (tryMap' : List Nat),
    placeKeys hashes tableLen map gen d1 d2 bucket tryMap values = (some values', tryMap') →
    tryMap.length = tableLen →
    (∀ i, tryMap.getD i 0 = gen ↔ i ∈ values.map Prod.fst) →
    (values.map Prod.fst).Nodup →
    (∀ iv ∈ values, iv.1 < tableLen ∧ map.getD iv.1 0 = USIZE_MAX) →
    values'.map Prod.snd = values.map Prod.snd ++ bucket ∧
    (values'.map Prod.fst).Nodup ∧
    (∀ iv ∈ values', iv.1 < tableLen ∧ map.getD iv.1 0 = USIZE_MAX) := by
  intro bucket
  induction bucket with
  | nil =>
    intro tryMap values values' tryMap' h hlen hiff hnd hmem
    rw [placeKeys] at h
    cases h
    exact ⟨by simp, hnd, hmem⟩
  | cons key bucket ih =>
    intro tryMap values values' tryMap' h hlen hiff hnd hmem
    rw [placeKeys] at h
    split at h
    · cases h
    · rename_i hcond
      push_neg at hcond
      obtain ⟨hmax, hstamp⟩ := hcond
      set idx := displace (hashes.getD key ⟨0, 0, 0⟩).f1
        (hashes.getD key ⟨0, 0, 0⟩).f2 d1 d2 % tableLen with hidx
      have hlt : idx < tableLen := Nat.mod_lt _ h0
      have hnotmem : idx ∉ values.map Prod.fst := by
        intro hmem2
        exact hstamp ((hiff idx).mpr hmem2)
      have hres := ih (tryMap.set idx gen) (values ++ [(idx, key)]) values' tryMap' h
        (by rw [List.length_set]; exact hlen)
        (by
          intro i
          by_cases hi : i = idx
          · subst hi
            rw [getD_set_self tryMap idx gen (by omega)]
            simp
          · rw [getD_set_other tryMap idx i gen (by omega)]
            rw [hiff i]
            simp [hi])
        (by
          rw [List.map_append, List.nodup_append]
          refine ⟨hnd, by simp, ?_⟩
          intro a ha hb
          simp at hb
          subst hb
          exact hnotmem ha)
        (by
          intro iv hiv
          rcases List.mem_append.mp hiv with h1 | h1
          · exact hmem iv h1
          · simp at h1
            subst h1
            exact ⟨hlt, hmax⟩)
      refine ⟨?_, hres.2.1, hres.2.2⟩
      rw [hres.1, List.map_append]
      simp

theorem innerLoop_spec (hashes : List Hashes) (tableLen : Nat) (map : List Nat)
    (bucket : List Nat) (d1 : Nat) (h0 : 0 < tableLen) :
    ∀ (ds tryMap : List Nat) (gen : Nat)
      (res : Option (Nat × List (Nat × Nat))) (tm' : List Nat) (gen' : Nat),
    innerLoop hashes tableLen map bucket d1 ds tryMap gen = (res, tm', gen') →
    tryMap.length = tableLen →
    (∀ i, tryMap.getD i 0 ≤ gen) →
    tm'.length = tableLen ∧ gen ≤ gen' ∧ (∀ i, tm'.getD i 0 ≤ gen') ∧
    (∀ d2 values, res = some (d2, values) →
       values.map Prod.snd = bucket ∧ (values.map Prod.fst).Nodup ∧
       (∀ iv ∈ values, iv.1 < tableLen ∧ map.getD iv.1 0 = USIZE_MAX)) := by
  intro ds
  induction ds with
  | nil =>
    intro tryMap gen res tm' gen' h hlen hle
    rw [innerLoop] at h
    cases h
    exact ⟨hlen, le_rfl, hle, fun d2 values hv => by cases hv⟩
  | cons d2 ds ih =>
    intro tryMap gen res tm' gen' h hlen hle
    rw [innerLoop] at h
    cases hpk : placeKeys hashes tableLen map (gen + 1) d1 d2 bucket tryMap [] with
    | mk res1 tm1 =>
      have hst := placeKeys_stamps hashes tableLen map (gen + 1) d1 d2 bucket tryMap []
      rw [hpk] at hst
      have hstLen : tm1.length = tryMap.length := hst.1
      have hstStamp : ∀ i, tm1.getD i 0 = tryMap.getD i 0 ∨ tm1.getD i 0 = gen + 1 :=
        hst.2
      clear hst
      cases res1 with
      | some values =>
        simp only [hpk] at h
        cases h
        have hspec := placeKeys_spec hashes tableLen map (gen + 1) d1 d2 h0
          bucket tryMap [] values _ hpk hlen
          (by
            intro i
            simp only [List.map_nil, List.not_mem_nil, iff_false]
            intro hgen
            have := hle i
            omega)
          (by simp)
          (by intro iv hiv; simp at hiv)
        refine ⟨by rw [hstLen]; exact hlen, by omega, ?_, ?_⟩
        · intro i
          rcases hstStamp i with h2 | h2
          · have := hle i
            omega
          · omega
        · intro d2x valuesx hv
          cases hv
          refine ⟨by simpa using hspec.1, hspec.2.1, hspec.2.2⟩
      | none =>
        simp only [hpk] at h
        have hrec := ih tm1 (gen + 1) res tm' gen' h
          (by rw [hstLen]; exact hlen)
          (by
            intro i
            rcases hstStamp i with h2 | h2
            · have := hle i
              omega
            · omega)
        exact ⟨hrec.1, by omega, hrec.2.2.1, hrec.2.2.2⟩

theorem outerLoop_spec (hashes : List Hashes) (tableLen : Nat) (map : List Nat)
    (bucket : List Nat) (h0 : 0 < tableLen) :
    ∀ (ds tryMap : List Nat) (gen : Nat)
      (res : Option (Nat × Nat × List (Nat × Nat))) (tm' : List Nat) (gen' : Nat),
    outerLoop hashes tableLen map bucket ds tryMap gen = (res, tm', gen') →
    tryMap.length = tableLen →
    (∀ i, tryMap.getD i 0 ≤ gen) →
    tm'.length = tableLen ∧ gen ≤ gen' ∧ (∀ i, tm'.getD i 0 ≤ gen') ∧
    (∀ d1 d2 values, res = some (d1, d2, values) →
       values.map Prod.snd = bucket ∧ (values.map Prod.fst).Nodup ∧
       (∀ iv ∈ values, iv.1 < tableLen ∧ map.getD iv.1 0 = USIZE_MAX)) := by
  intro ds
  induction ds with
  | nil =>
    intro tryMap gen res tm' gen' h hlen hle
    rw [outerLoop] at h
    cases h
    exact ⟨hlen, le_rfl, hle, fun d1 d2 values hv => by cases hv⟩
  | cons d1 ds ih =>
    intro tryMap gen res tm' gen' h hlen hle
    rw [outerLoop] at h
    cases hil : innerLoop hashes tableLen map bucket d1
        (List.range (tableLen % 2 ^ 32)) tryMap gen with
    | mk res1 rest =>
      obtain ⟨tm1, gen1⟩ := rest
      have hspec := innerLoop_spec hashes tableLen map bucket d1 h0
        (List.range (tableLen % 2 ^ 32)) tryMap gen res1 tm1 gen1 hil hlen hle
      cases res1 with
      | some v =>
        obtain ⟨d2, values⟩ := v
        simp only [hil] at h
        cases h
        refine ⟨hspec.1, hspec.2.1, hspec.2.2.1, ?_⟩
        intro d1x d2x valuesx hv
        cases hv
        exact hspec.2.2.2 d2 values rfl
      | none =>
        simp only [hil] at h
        have hrec := ih tm1 gen1 res tm' gen' h hspec.1 hspec.2.2.1
        exact ⟨hrec.1, by have := hspec.2.1; omega, hrec.2.2.1, hrec.2.2.2⟩

theorem commitVals_spec : ∀ (values : List (Nat × Nat)) (map : List Nat),
    (values.map Prod.fst).Nodup →
    (∀ iv ∈ values, iv.1 < map.length ∧ map.getD iv.1 0 = USIZE_MAX) →
    (commitVals map values).length = map.length ∧
    (∀ x, (commitVals map values).count x +
        (if USIZE_MAX = x then values.length else 0)
      = map.count x + (values.map Prod.snd).count x) := by
  intro values
  induction values with
  | nil =>
    intro map hnd hmem
    exact ⟨rfl, fun x => by simp [commitVals]⟩
  | cons iv values ih =>
    intro map hnd hmem
    obtain ⟨i, k⟩ := iv
    have hiv := hmem (i, k) (List.mem_cons_self _ _)
    have hnd' : (values.map Prod.fst).Nodup := (List.nodup_cons.mp hnd).2
    have hnoti : i ∉ values.map Prod.fst := (List.nodup_cons.mp hnd).1
    have hmem' : ∀ jv ∈ values, jv.1 < (map.set i k).length ∧
        (map.set i k).getD jv.1 0 = USIZE_MAX := by
      intro jv hjv
      have hj := hmem jv (List.mem_cons_of_mem _ hjv)
      have hne : i ≠ jv.1 := by
        intro he
        exact hnoti (he ▸ List.mem_map_of_mem Prod.fst hjv)
      rw [List.length_set, getD_set_other map i jv.1 k hne]
      exact hj
    have hih := ih (map.set i k) hnd' hmem'
    constructor
    · show (commitVals (map.set i k) values).length = map.length
      rw [hih.1, List.length_set]
    · intro x
      have h1 := hih.2 x
      have h2 := count_set_add map i k x hiv.1
      rw [hiv.2] at h2
      show (commitVals (map.set i k) values).count x +
          (if USIZE_MAX = x then values.length + 1 else 0)
        = map.count x + ((k, x) |> fun _ => (k :: values.map Prod.snd)).count x
      simp only [List.count_cons, beq_iff_eq]
      split_ifs at h1 h2 ⊢ <;> omega

theorem processBuckets_spec (hashes : List Hashes) (tableLen : Nat) (h0 : 0 < tableLen) :
    ∀ (buckets : List (List Nat)) (map tryMap : List Nat) (gen : Nat)
      (map' : List Nat) (disps : List (Nat × Nat)),
    processBuckets hashes tableLen buckets map tryMap gen = some (map', disps) →
    map.length = tableLen →
    tryMap.length = tableLen →
    (∀ i, tryMap.getD i 0 ≤ gen) →
    map'.length = tableLen ∧
    (∀ x, map'.count x + (if USIZE_MAX = x then buckets.flatten.length else 0)
        = map.count x + buckets.flatten.count x) := by
  intro buckets
  induction buckets with
  | nil =>
    intro map tryMap gen map' disps h hm ht hle
    rw [processBuckets] at h
    cases h
    exact ⟨hm, fun x => by simp⟩
  | cons bucket bs ih =>
    intro map tryMap gen map' disps h hm ht hle
    rw [processBuckets] at h
    cases hol : outerLoop hashes tableLen map bucket
        (List.range (tableLen % 2 ^ 32)) tryMap gen with
    | mk res1 rest =>
      obtain ⟨tm1, gen1⟩ := rest
      have hspec := outerLoop_spec hashes tableLen map bucket h0
        (List.range (tableLen % 2 ^ 32)) tryMap gen res1 tm1 gen1 hol ht hle
      cases res1 with
      | none =>
        simp only [hol] at h
        cases h
      | some v =>
        obtain ⟨d1, d2, values⟩ := v
        simp only [hol] at h
        have hv := hspec.2.2.2 d1 d2 values rfl
        have hcommit := commitVals_spec values map hv.2.1
          (by
            intro iv hiv
            have hx := hv.2.2 iv hiv
            exact ⟨by omega, hx.2⟩)
        cases hrec : processBuckets hashes tableLen bs (commitVals map values) tm1 gen1 with
        | none =>
          simp only [hrec] at h
          cases h
        | some v2 =>
          obtain ⟨map2, disps2⟩ := v2
          simp only [hrec] at h
          cases h
          have hih := ih (commitVals map values) tm1 gen1 _ _ hrec
            (by rw [hcommit.1]; exact hm) hspec.1 hspec.2.2.1
          refine ⟨hih.1, ?_⟩
          intro x
          have h1 := hih.2 x
          have h2 := hcommit.2 x
          have hlenv : values.length = bucket.length := by
            calc values.length = (values.map Prod.snd).length :=
              (List.length_map _ _).symm
            _ = bucket.length := by rw [hv.1]
          have hcnt : (values.map Prod.snd).count x = bucket.count x := by rw [hv.1]
          rw [List.flatten_cons, List.length_append, List.count_append]
          split_ifs at h1 h2 ⊢ <;> omega

theorem flatten_set_push (x : Nat) : ∀ (l : List (List Nat)) (i : Nat), i < l.length →
    ((l.set i (l.getD i [] ++ [x])).flatten).Perm (l.flatten ++ [x]) := by
  intro l
  induction l with
  | nil =>
    intro i h
    simp at h
  | cons a as ih =>
    intro i h
    cases i with
    | zero =>
      show (((a ++ [x]) :: as).flatten).Perm ((a :: as).flatten ++ [x])
      rw [List.flatten_cons, List.flatten_cons, List.append_assoc, List.append_assoc]
      exact List.Perm.append_left a (List.perm_append_comm)
    | succ i =>
      show ((a :: as.set i (as.getD i [] ++ [x])).flatten).Perm ((a :: as).flatten ++ [x])
      rw [List.flatten_cons, List.flatten_cons, List.append_assoc]
      exact List.Perm.append_left a (ih i (by simpa using h))

theorem buildAux_flatten : ∀ (hs : List Hashes) (idx : Nat) (buckets : List (List Nat)),
    0 < buckets.length →
    ((buildBucketsAux hs idx buckets).flatten).Perm
      (buckets.flatten ++ List.range' idx hs.length) := by
  intro hs
  induction hs with
  | nil =>
    intro idx buckets h
    show (buckets.flatten).Perm (buckets.flatten ++ List.range' idx 0)
    simp
  | cons hh hs ih =>
    intro idx buckets h
    have hlt : hh.g % buckets.length < buckets.length := Nat.mod_lt _ h
    have hlen : (buckets.set (hh.g % buckets.length)
        (buckets.getD (hh.g % buckets.length) [] ++ [idx])).length = buckets.length :=
      List.length_set _ _ _
    have h1 := ih (idx + 1) (buckets.set (hh.g % buckets.length)
        (buckets.getD (hh.g % buckets.length) [] ++ [idx])) (by omega)
    have h2 := flatten_set_push idx buckets (hh.g % buckets.length) hlt
    show ((buildBucketsAux hs (idx + 1) (buckets.set (hh.g % buckets.length)
        (buckets.getD (hh.g % buckets.length) [] ++ [idx]))).flatten).Perm
      (buckets.flatten ++ List.range' idx (hs.length + 1))
    rw [List.range'_succ]
    refine h1.trans ?_
    refine (h2.append_right _).trans ?_
    rw [List.append_assoc]
    refine List.Perm.append_left buckets.flatten ?_
    show ([idx] ++ List.range' (idx + 1) hs.length).Perm (idx :: List.range' (idx + 1) hs.length)
    exact List.Perm.refl _

theorem replicate_nil_flatten : ∀ n : Nat, (List.replicate n ([] : List Nat)).flatten = [] := by
  intro n
  induction n with
  | zero => rfl
  | succ n ih =>
    rw [List.replicate_succ, List.flatten_cons, ih]
    rfl

theorem buildBuckets_flatten (hashes : List Hashes) (dLen : Nat) (h : 0 < dLen) :
    ((buildBuckets hashes dLen).flatten).Perm (List.range hashes.length) := by
  have h1 := buildAux_flatten hashes 0 (List.replicate dLen []) (by simpa using h)
  rw [replicate_nil_flatten, List.nil_append] at h1
  rw [List.range_eq_range']
  exact h1

theorem buildAux_nilBuckets : ∀ (hs : List Hashes) (idx : Nat),
    buildBucketsAux hs idx [] = [] := by
  intro hs
  induction hs with
  | nil => intro idx; rfl
  | cons hh hs ih => intro idx; exact ih (idx + 1)

theorem getD_replicate_zero : ∀ (n i : Nat), (List.replicate n (0 : Nat)).getD i 0 = 0 := by
  intro n
  induction n with
  | zero => intro i; rfl
  | succ n ih =>
    intro i
    cases i with
    | zero => rfl
    | succ i => exact ih i

/-- Claim C2: whenever `try_generate_hash` succeeds for `N` entries within the
generator's layout (`dLen = ceil(N/5)` displacement slots, `N` at most
`usize::MAX`), the returned map has length `N`, no cell still holds the
sentinel `usize::MAX`, and the map is a permutation of the entry indices
`0..N`; and within one `(d1, d2)` attempt, a candidate slot already committed
in `map` or already stamped with the current generation in `try_map` makes
`placeKeys` abandon that attempt immediately. -/
theorem C2_phf_map_permutation (hashes : List Hashes) (dLen key : Nat)
    (st : HashState) (disps : List (Nat × Nat))
    (hd : dLen = displacements_len hashes.length)
    (hN : hashes.length ≤ USIZE_MAX)
    (h : try_generate_hash hashes dLen key = some (st, disps)) :
    st.map.length = hashes.length ∧
    USIZE_MAX ∉ st.map ∧
    st.map.Perm (List.range hashes.length) ∧
    (∀ (m tm : List Nat) (g e1 e2 k : Nat) (bucket : List Nat)
       (vals : List (Nat × Nat)),
       (m.getD (displace (hashes.getD k ⟨0, 0, 0⟩).f1
            (hashes.getD k ⟨0, 0, 0⟩).f2 e1 e2 % hashes.length) 0 ≠ USIZE_MAX ∨
        tm.getD (displace (hashes.getD k ⟨0, 0, 0⟩).f1
            (hashes.getD k ⟨0, 0, 0⟩).f2 e1 e2 % hashes.length) 0 = g) →
       (placeKeys hashes hashes.length m g e1 e2 (k :: bucket) tm vals).1 = none) := by
  have habandon : ∀ (m tm : List Nat) (g e1 e2 k : Nat) (bucket : List Nat)
      (vals : List (Nat × Nat)),
      (m.getD (displace (hashes.getD k ⟨0, 0, 0⟩).f1
           (hashes.getD k ⟨0, 0, 0⟩).f2 e1 e2 % hashes.length) 0 ≠ USIZE_MAX ∨
       tm.getD (displace (hashes.getD k ⟨0, 0, 0⟩).f1
           (hashes.getD k ⟨0, 0, 0⟩).f2 e1 e2 % hashes.length) 0 = g) →
      (placeKeys hashes hashes.length m g e1 e2 (k :: bucket) tm vals).1 = none := by
    intro m tm g e1 e2 k bucket vals hcond
    rw [placeKeys]
    split
    · rfl
    · rename_i hc
      exact absurd hcond hc
  unfold try_generate_hash at h
  cases hpb : processBuckets hashes hashes.length
      (sortByLen (buildBuckets hashes dLen))
      (List.replicate hashes.length USIZE_MAX)
      (List.replicate hashes.length 0) 0 with
  | none =>
    simp only [hpb] at h
    cases h
  | some v =>
    obtain ⟨map, ds⟩ := v
    simp only [hpb] at h
    cases h
    by_cases hzero : hashes.length = 0
    · have hd0 : dLen = 0 := by
        rw [hd, hzero]
        rfl
      have hbb : buildBuckets hashes dLen = [] := by
        rw [hd0]
        exact buildAux_nilBuckets hashes 0
      rw [hbb] at hpb
      have hrep : List.replicate hashes.length USIZE_MAX = ([] : List Nat) := by
        rw [hzero]
        rfl
      rw [hrep] at hpb
      rw [show sortByLen ([] : List (List Nat)) = [] from rfl] at hpb
      rw [processBuckets] at hpb
      cases hpb
      refine ⟨by rw [hzero]; rfl, by simp, by rw [hzero]; exact List.Perm.refl _, habandon⟩
    · have h0 : 0 < hashes.length := by omega
      have hdpos : 0 < dLen := by
        rw [hd]
        unfold displacements_len DEFAULT_LAMBDA
        omega
      have hflat : ((sortByLen (buildBuckets hashes dLen)).flatten).Perm
          (List.range hashes.length) :=
        ((sortByLen_perm (buildBuckets hashes dLen)).flatten).trans
          (buildBuckets_flatten hashes dLen hdpos)
      have hflatlen : (sortByLen (buildBuckets hashes dLen)).flatten.length =
          hashes.length := by
        rw [hflat.length_eq, List.length_range]
      have hspec := processBuckets_spec hashes hashes.length h0
        (sortByLen (buildBuckets hashes dLen))
        (List.replicate hashes.length USIZE_MAX)
        (List.replicate hashes.length 0) 0 _ _ hpb
        (List.length_replicate _ _) (List.length_replicate _ _)
        (fun i => by rw [getD_replicate_zero])
      have hcount : ∀ x, map.count x = (List.range hashes.length).count x := by
        intro x
        have h1 := hspec.2 x
        rw [hflatlen, hflat.count_eq x, List.count_replicate] at h1
        by_cases hx : USIZE_MAX = x
        · rw [if_pos hx, if_pos (beq_iff_eq.mpr hx)] at h1
          omega
        · rw [if_neg hx, if_neg (fun hc => hx (beq_iff_eq.mp hc))] at h1
          omega
      have hperm : map.Perm (List.range hashes.length) :=
        List.perm_iff_count.mpr hcount
      have hnotin : USIZE_MAX ∉ map := by
        have hcz : map.count USIZE_MAX = 0 := by
          rw [hcount]
          refine List.count_eq_zero.mpr ?_
          intro hmem
          have := List.mem_range.mp hmem
          omega
        exact List.count_eq_zero.mp hcz
      exact ⟨hspec.1, hnotin, hperm, habandon⟩

/-- Witness for C2 at the six-entry example with the layout invariant
`dLen = ceil(6/5) = 2`. -/
theorem C2_phf_map_permutation_witness :
    ((2 : Nat) = displacements_len (List.length exampleHashes) ∧
     List.length exampleHashes ≤ USIZE_MAX ∧
     try_generate_hash exampleHashes 2 0 =
       some (⟨0, [4, 5, 0, 1, 2, 3]⟩, [(0, 0), (0, 2)])) ∧
    ((HashState.mk 0 [4, 5, 0, 1, 2, 3]).map.length = List.length exampleHashes ∧
     USIZE_MAX ∉ (HashState.mk 0 [4, 5, 0, 1, 2, 3]).map ∧
     (HashState.mk 0 [4, 5, 0, 1, 2, 3]).map.Perm
       (List.range (List.length exampleHashes)) ∧
     (∀ (m tm : List Nat) (g e1 e2 k : Nat) (bucket : List Nat)
        (vals : List (Nat × Nat)),
        (m.getD (displace (exampleHashes.getD k ⟨0, 0, 0⟩).f1
             (exampleHashes.getD k ⟨0, 0, 0⟩).f2 e1 e2 %
             List.length exampleHashes) 0 ≠ USIZE_MAX ∨
         tm.getD (displace (exampleHashes.getD k ⟨0, 0, 0⟩).f1
             (exampleHashes.getD k ⟨0, 0, 0⟩).f2 e1 e2 %
             List.length exampleHashes) 0 = g) →
        (placeKeys exampleHashes (List.length exampleHashes) m g e1 e2
          (k :: bucket) tm vals).1 = none)) :=
  ⟨⟨by decide, by decide, by decide⟩,
   C2_phf_map_permutation exampleHashes 2 0 ⟨0, [4, 5, 0, 1, 2, 3]⟩ [(0, 0), (0, 2)]
     (by decide) (by decide) (by decide)⟩
